import Mathlib

/-!
Verification of the history storage and query core of `one-shell-history`
(`src/osh.py`), as a shallow embedding in Lean 4.

Modelling conventions:
* A byte file is a `List Nat` (each entry one byte value).
* Timestamps are `Int` nanoseconds since the epoch, UTC (Python `datetime`
  with sub-second precision; the msgpack timestamp extension stores
  seconds and nanoseconds, which we derive by euclidean div/mod).
* Command and the optional string fields are UTF-8 byte lists.
* A Python `float` is represented by its IEEE-754 bit pattern (a `Nat`
  below `2 ^ 64`); the codec stores and recovers exactly those bits, so no
  floating-point arithmetic is modelled.
* Python exceptions are `Except OshErr` / `Option` error values.
* Loops that walk file offsets are given an explicit fuel argument equal to
  the starting offset bound; each Python iteration strictly decreases the
  offset, so any fuel at least the starting offset computes the same result
  (proved below as fuel-irrelevance lemmas), and keeping the recursion
  structural lets concrete witnesses evaluate inside the kernel.
-/

/-- The event record of `osh.py` (`class Event(msgspec.Struct, tag="v1")`).
`duration` is `None | int | float`: `Sum.inl` an integer duration,
`Sum.inr` the bit pattern of a float duration. -/
structure Event where
  timestamp : Int
  command : List Nat
  duration : Option (Int ⊕ Nat)
  exit_code : Option Int
  folder : Option (List Nat)
  machine : Option (List Nat)
  session : Option (List Nat)
deriving DecidableEq

/-- The aggregated record of `class BaggedEvent` (ratios as exact rationals;
the Python floats at the claims' concrete inputs are exact dyadics). -/
structure BaggedEvent where
  timestamp : Int
  command : List Nat
  count : Nat
  success_ratio : ℚ
  failure_ratio : ℚ
  unknown_ratio : ℚ
deriving DecidableEq

/-- Error values standing for the Python exceptions the modelled code can raise. -/
inductive OshErr where
  /-- `msgspec` failed to encode a field value (out of the representable range). -/
  | encodeFail
  /-- `OverflowError` from `size.to_bytes(length=2)` with `size ≥ 2 ^ 16`. -/
  | overflow
  /-- `ValueError` from `mmap.mmap` on an empty file. -/
  | mmapEmpty
  /-- a frame failed to decode, or a size word is inconsistent. -/
  | corrupt
  /-- `assert False` on a `.zsh_history` line that does not match the regex. -/
  | parseErr
  /-- `next()` exhausted the zsh line iterator inside a continuation. -/
  | stopIter
deriving DecidableEq

/-- Python's `round`: round half to even (banker's rounding). -/
def py_round (q : ℚ) : ℤ :=
  if q - ⌊q⌋ < 1/2 then ⌊q⌋
  else if 1/2 < q - ⌊q⌋ then ⌊q⌋ + 1
  else if ⌊q⌋ % 2 = 0 then ⌊q⌋ else ⌊q⌋ + 1

/-- `py_round` is a nearest-integer rounding: it is within half of its argument. -/
theorem py_round_abs (q : ℚ) : |q - (py_round q : ℚ)| ≤ 1/2 := by
  have h1 : ((⌊q⌋ : ℤ) : ℚ) ≤ q := Int.floor_le q
  have h2 : q < ⌊q⌋ + 1 := Int.lt_floor_add_one q
  unfold py_round
  split_ifs with ha hb hc <;> rw [abs_le] <;> constructor <;> push_cast at * <;> linarith

/-- `human_duration` from `osh.py`, over exact rationals (seconds in). -/
def human_duration (dt : ℚ) : String :=
  let ms := dt * 1000
  if ms < 1000 then toString (py_round ms) ++ "ms"
  else
    let s := ms / 1000
    if s < 60 then toString (py_round s) ++ "s"
    else
      let m := s / 60
      if m < 60 then toString (py_round m) ++ "m"
      else
        let h := m / 60
        if h < 24 then toString (py_round h) ++ "h"
        else
          let d := h / 24
          if d < 7 then toString (py_round d) ++ "D"
          else if d < 365 then toString (py_round (d / 7)) ++ "W"
          else toString (py_round (d / 365)) ++ "Y"

/-! ### Bagging (`BaggedEvent.from_bag`, `bagged_events`) -/

/-- `max(e.timestamp for e in bag)`: junk `0` on `[]`, where Python raises. -/
def maxTs : List Event → Int
  | [] => 0
  | b :: bs => bs.foldl (fun m x => max m x.timestamp) b.timestamp

/-- The record `BaggedEvent.from_bag` builds on a non-empty bag:
`success` counts `exit_code == 0`, `failure` counts `exit_code != 0` (which
in Python is also true when `exit_code` is `None`), `unknown` is the
remainder, and the timestamp is the bag's maximum. -/
def mkBag (command : List Nat) (bag : List Event) : BaggedEvent :=
  { timestamp := maxTs bag
    command := command
    count := bag.length
    success_ratio :=
      (bag.countP (fun e => decide (e.exit_code = some 0)) : ℚ) / bag.length
    failure_ratio :=
      (bag.countP (fun e => decide (e.exit_code ≠ some 0)) : ℚ) / bag.length
    unknown_ratio :=
      (((bag.length : ℤ) - bag.countP (fun e => decide (e.exit_code = some 0))
        - bag.countP (fun e => decide (e.exit_code ≠ some 0)) : ℤ) : ℚ) / bag.length }

/-- `BaggedEvent.from_bag`; `none` on an empty bag, where Python's `max`
raises `ValueError`. -/
def from_bag (command : List Nat) (bag : List Event) : Option BaggedEvent :=
  match bag with
  | [] => none
  | _ :: _ => some (mkBag command bag)

/-- One step of `bagged.setdefault(event.command, []).append(event)`:
append to the entry with this command, else append a fresh entry. -/
def addToBag (acc : List (List Nat × List Event)) (e : Event) :
    List (List Nat × List Event) :=
  if e.command ∈ acc.map Prod.fst then
    acc.map (fun p => if p.1 = e.command then (p.1, p.2 ++ [e]) else p)
  else acc ++ [(e.command, [e])]

/-- The insertion-ordered grouping dict built by `bagged_events`. -/
def bagGroups (events : List Event) : List (List Nat × List Event) :=
  events.foldl addToBag []

/-- `bagged_events` (the `Option` is `none` only if some bag were empty,
which never happens; Python would raise there). -/
def bagged_events (events : List Event) : Option (List BaggedEvent) :=
  (bagGroups events).mapM (fun p => from_bag p.1 p.2)

/-- First occurrences, in order, of the elements of `l` (the insertion order
of the keys of the Python dict built by `bagged_events`). -/
def firstOccurrences (l : List (List Nat)) : List (List Nat) :=
  l.foldl (fun acc c => if c ∈ acc then acc else acc ++ [c]) []

/-- Newest-first order on events: `a` comes no later than `b`. -/
def tsGe (a b : Event) : Prop := b.timestamp ≤ a.timestamp

/-- Oldest-first order on events. -/
def tsLe (a b : Event) : Prop := a.timestamp ≤ b.timestamp

instance : DecidableRel tsGe := fun a b =>
  inferInstanceAs (Decidable (b.timestamp ≤ a.timestamp))

instance : DecidableRel tsLe := fun a b =>
  inferInstanceAs (Decidable (a.timestamp ≤ b.timestamp))

instance : IsTotal Event tsGe := ⟨fun a b => by unfold tsGe; exact Int.le_total _ _⟩

instance : IsTotal Event tsLe := ⟨fun a b => by unfold tsLe; exact Int.le_total _ _⟩

instance : IsTrans Event tsGe := ⟨fun _ _ _ h h' => le_trans h' h⟩

instance : IsTrans Event tsLe := ⟨fun _ _ _ h h' => le_trans h h'⟩

theorem le_foldl_max (l : List Event) : ∀ m : Int,
    m ≤ l.foldl (fun a x => max a x.timestamp) m := by
  induction l with
  | nil => simp
  | cons a l ih => intro m; exact le_trans (le_max_left _ _) (ih _)

theorem foldl_max_mem (l : List Event) : ∀ m : Int, ∀ x ∈ l,
    x.timestamp ≤ l.foldl (fun a y => max a y.timestamp) m := by
  induction l with
  | nil => simp
  | cons a l ih =>
    intro m x hx
    rcases List.mem_cons.mp hx with h | h
    · subst h; exact le_trans (le_max_right _ _) (le_foldl_max _ _)
    · exact ih _ _ h

theorem foldl_max_of_le (l : List Event) : ∀ m : Int, (∀ x ∈ l, x.timestamp ≤ m) →
    l.foldl (fun a y => max a y.timestamp) m = m := by
  induction l with
  | nil => simp
  | cons a l ih =>
    intro m h
    rw [List.foldl_cons, max_eq_left (h a (List.mem_cons_self a l))]
    exact ih m fun x hx => h x (List.mem_cons_of_mem a hx)

/-- Every member of a bag is bounded by the bag's maximum timestamp. -/
theorem mem_le_maxTs (bag : List Event) (x : Event) (hx : x ∈ bag) :
    x.timestamp ≤ maxTs bag := by
  match bag with
  | b :: bs =>
    rcases List.mem_cons.mp hx with h | h
    · subst h; exact le_foldl_max _ _
    · exact foldl_max_mem _ _ _ h

/-- On a newest-first bag the maximum timestamp is the head's. -/
theorem maxTs_of_sorted (b : Event) (bs : List Event) (h : List.Sorted tsGe (b :: bs)) :
    maxTs (b :: bs) = b.timestamp :=
  foldl_max_of_le _ _ fun x hx => (List.rel_of_sorted_cons h x hx : tsGe b x)

theorem maxTs_append_last (g : List Event) (e : Event) (hne : g ≠ [])
    (hle : ∀ x ∈ g, e.timestamp ≤ x.timestamp) : maxTs (g ++ [e]) = maxTs g := by
  match g with
  | b :: bs =>
    show List.foldl _ b.timestamp (bs ++ [e]) = _
    rw [List.foldl_append]
    exact max_eq_left (le_trans (hle b (List.mem_cons_self b bs)) (le_foldl_max bs b.timestamp))

theorem bagGroups_append (evs : List Event) (e : Event) :
    bagGroups (evs ++ [e]) = addToBag (bagGroups evs) e := by
  simp [bagGroups, List.foldl_append]

theorem firstOccurrences_append (l : List (List Nat)) (c : List Nat) :
    firstOccurrences (l ++ [c]) =
      if c ∈ firstOccurrences l then firstOccurrences l else firstOccurrences l ++ [c] := by
  simp [firstOccurrences, List.foldl_append]

theorem mem_foldl_firstOcc (l : List (List Nat)) : ∀ acc x,
    (x ∈ l.foldl (fun acc c => if c ∈ acc then acc else acc ++ [c]) acc) ↔
      (x ∈ acc ∨ x ∈ l) := by
  induction l with
  | nil => simp
  | cons a l ih =>
    intro acc x
    rw [List.foldl_cons, ih]
    by_cases ha : a ∈ acc
    · rw [if_pos ha]
      constructor
      · rintro (h | h)
        · exact Or.inl h
        · exact Or.inr (List.mem_cons_of_mem _ h)
      · rintro (h | h)
        · exact Or.inl h
        · rcases List.mem_cons.mp h with rfl | h
          · exact Or.inl ha
          · exact Or.inr h
    · rw [if_neg ha]
      simp only [List.mem_append, List.mem_singleton, List.mem_cons]
      tauto

/-- Membership in the first-occurrence list is plain membership. -/
theorem mem_firstOccurrences (l : List (List Nat)) (x : List Nat) :
    x ∈ firstOccurrences l ↔ x ∈ l := by
  rw [firstOccurrences, mem_foldl_firstOcc]; simp

/-- The grouping dict, described extensionally: keys are the first
occurrences of the commands, in order, and each bag is the filter of the
stream by that command. -/
def groupsSpec (events : List Event) : List (List Nat × List Event) :=
  (firstOccurrences (events.map Event.command)).map
    (fun c => (c, events.filter (fun x => decide (x.command = c))))

theorem bagGroups_eq (events : List Event) : bagGroups events = groupsSpec events := by
  induction events using List.reverseRecOn with
  | nil => rfl
  | append_singleton evs e ih =>
    have hkeys : (groupsSpec evs).map Prod.fst = firstOccurrences (evs.map Event.command) := by
      simp [groupsSpec, List.map_map, Function.comp_def]
    have hmapcmd : (evs ++ [e]).map Event.command = evs.map Event.command ++ [e.command] := by
      simp
    rw [bagGroups_append, ih]
    by_cases hmem : e.command ∈ firstOccurrences (evs.map Event.command)
    · rw [addToBag, if_pos (by rw [hkeys]; exact hmem)]
      conv_rhs => rw [groupsSpec, hmapcmd, firstOccurrences_append, if_pos hmem]
      simp only [groupsSpec, List.map_map]
      refine List.map_congr_left fun c hc => ?_
      by_cases hce : c = e.command
      · simp [Function.comp, hce, List.filter_append]
      · have hec : ¬ (e.command = c) := fun h => hce h.symm
        simp [Function.comp, hce, hec, List.filter_append]
    · rw [addToBag, if_neg (by rw [hkeys]; exact hmem)]
      conv_rhs => rw [groupsSpec, hmapcmd, firstOccurrences_append, if_neg hmem]
      rw [List.map_append]
      simp only [groupsSpec]
      congr 1
      · refine List.map_congr_left fun c hc => ?_
        have hec : ¬ (e.command = c) := fun h => hmem (h ▸ hc)
        simp [List.filter_append, hec]
      · have hnil : evs.filter (fun x => decide (x.command = e.command)) = [] := by
          rw [List.filter_eq_nil_iff]
          intro a ha hcmd
          exact hmem ((mem_firstOccurrences _ _).mpr
            (List.mem_map.mpr ⟨a, ha, by simpa using hcmd⟩))
        simp [List.filter_append, hnil]

theorem from_bag_ne (c : List Nat) (bag : List Event) (h : bag ≠ []) :
    from_bag c bag = some (mkBag c bag) := by
  cases bag with
  | nil => exact absurd rfl h
  | cons b bs => rfl

theorem mapM_from_bag (l : List (List Nat × List Event)) (h : ∀ p ∈ l, p.2 ≠ []) :
    l.mapM (fun p => from_bag p.1 p.2) = some (l.map (fun p => mkBag p.1 p.2)) := by
  induction l with
  | nil => rfl
  | cons p l ih =>
    rw [List.mapM_cons, from_bag_ne p.1 p.2 (h p (List.mem_cons_self _ _)),
      ih fun q hq => h q (List.mem_cons_of_mem _ hq)]
    rfl

/-- Every entry of the grouping dict is the filter of the stream by its
command, and in particular non-empty. -/
theorem bagGroups_mem (events : List Event) (p : List Nat × List Event)
    (hp : p ∈ bagGroups events) :
    p.2 = events.filter (fun x => decide (x.command = p.1)) ∧ p.2 ≠ [] := by
  rw [bagGroups_eq, groupsSpec] at hp
  obtain ⟨c, hc, rfl⟩ := List.mem_map.mp hp
  refine ⟨rfl, ?_⟩
  obtain ⟨x, hx, hxc⟩ := List.mem_map.mp ((mem_firstOccurrences _ _).mp hc)
  show events.filter (fun y => decide (y.command = c)) ≠ []
  intro hnil
  have hmem : x ∈ events.filter (fun y => decide (y.command = c)) :=
    List.mem_filter.mpr ⟨hx, by simp [hxc]⟩
  rw [hnil] at hmem
  exact absurd hmem (List.not_mem_nil x)

/-- The maximum timestamps of the bags, in dict insertion order, are
non-increasing whenever the stream itself is newest-first. -/
theorem bagGroups_sorted (events : List Event) (h : List.Sorted tsGe events) :
    List.Sorted (fun a b : Int => b ≤ a) ((bagGroups events).map (fun p => maxTs p.2)) := by
  induction events using List.reverseRecOn with
  | nil => simp [bagGroups]
  | append_singleton evs e ih =>
    obtain ⟨h1, h2, hrel⟩ := List.pairwise_append.mp h
    have hle : ∀ x ∈ evs, e.timestamp ≤ x.timestamp := fun x hx =>
      hrel x hx e (List.mem_singleton.mpr rfl)
    rw [bagGroups_append, addToBag]
    by_cases hmem : e.command ∈ (bagGroups evs).map Prod.fst
    · rw [if_pos hmem, List.map_map]
      have heq : (bagGroups evs).map
            ((fun p => maxTs p.2) ∘ fun p => if p.1 = e.command then (p.1, p.2 ++ [e]) else p) =
          (bagGroups evs).map (fun p => maxTs p.2) := by
        refine List.map_congr_left fun p hp => ?_
        obtain ⟨hfil, hne⟩ := bagGroups_mem evs p hp
        by_cases hpc : p.1 = e.command
        · simp only [Function.comp_apply, if_pos hpc]
          exact maxTs_append_last p.2 e hne fun x hx =>
            hle x (List.mem_filter.mp (hfil ▸ hx)).1
        · simp [Function.comp_apply, hpc]
      rw [heq]
      exact ih h1
    · rw [if_neg hmem, List.map_append]
      refine List.pairwise_append.mpr ⟨ih h1, List.pairwise_singleton _ _, ?_⟩
      intro t ht b hb
      obtain ⟨p, hp, rfl⟩ := List.mem_map.mp ht
      obtain ⟨hfil, hne⟩ := bagGroups_mem evs p hp
      have hb' : b = e.timestamp := by
        simp only [List.map_cons, List.map_nil, List.mem_singleton] at hb
        rw [hb]; rfl
      subst hb'
      obtain ⟨x, hxmem⟩ := List.exists_mem_of_ne_nil p.2 hne
      have hx : x ∈ evs := (List.mem_filter.mp (hfil ▸ hxmem)).1
      exact le_trans (hle x hx) (mem_le_maxTs p.2 x hxmem)

theorem find?_eq_head_filter (p : Event → Bool) (l : List Event) :
    l.find? p = (l.filter p).head? := by
  induction l with
  | nil => rfl
  | cons a l ih =>
    cases hpa : p a
    · rw [List.find?_cons_of_neg _ (by simp [hpa]), List.filter_cons_of_neg (by simp [hpa]), ih]
    · rw [List.find?_cons_of_pos _ hpa, List.filter_cons_of_pos hpa]
      rfl

/-- Claim C10: on a newest-first stream, bagging yields bags in
first-occurrence order of the commands; each bag's timestamp is the
timestamp of that command's first occurrence; and the bagged records are
themselves in non-increasing timestamp order (so the `search` command's
per-record ordering assertion holds for bagged output). -/
theorem bagged_events_c10 (events : List Event) (h : List.Sorted tsGe events) :
    ∃ bs, bagged_events events = some bs ∧
      List.Sorted (fun a b : BaggedEvent => b.timestamp ≤ a.timestamp) bs ∧
      bs.map BaggedEvent.command = firstOccurrences (events.map Event.command) ∧
      ∀ b ∈ bs, ∃ e, events.find? (fun x => decide (x.command = b.command)) = some e ∧
        b.timestamp = e.timestamp := by
  have hne : ∀ p ∈ bagGroups events, p.2 ≠ [] := fun p hp => (bagGroups_mem events p hp).2
  refine ⟨(bagGroups events).map (fun p => mkBag p.1 p.2), ?_, ?_, ?_, ?_⟩
  · rw [bagged_events]
    exact mapM_from_bag _ hne
  · exact List.pairwise_map.mpr (List.pairwise_map.mp (bagGroups_sorted events h))
  · rw [List.map_map, bagGroups_eq, groupsSpec, List.map_map]
    simp [Function.comp_def, mkBag]
  · intro b hb
    obtain ⟨p, hp, rfl⟩ := List.mem_map.mp hb
    obtain ⟨hfil, hne'⟩ := bagGroups_mem events p hp
    have hsf : List.Sorted tsGe (events.filter (fun x => decide (x.command = p.1))) :=
      h.filter _
    simp only [mkBag]
    cases hx : events.filter (fun x => decide (x.command = p.1)) with
    | nil => exact absurd (hfil.trans hx) hne'
    | cons hd tl =>
      refine ⟨hd, ?_, ?_⟩
      · rw [find?_eq_head_filter, hx]
        rfl
      · show maxTs p.2 = hd.timestamp
        rw [hfil, hx]
        exact maxTs_of_sorted hd tl (hx ▸ hsf)

/-- A concrete newest-first stream for the C10 witness: commands `ls`, `cd`,
`ls`, `cd` at timestamps 40, 30, 20, 10. -/
def demoStream : List Event :=
  [⟨40, [108, 115], none, some 0, none, none, none⟩,
   ⟨30, [99, 100], none, some 0, none, none, none⟩,
   ⟨20, [108, 115], none, some 1, none, none, none⟩,
   ⟨10, [99, 100], none, none, none, none, none⟩]

/-- Witness for C10 at a concrete newest-first stream. -/
theorem bagged_events_c10_witness :
    List.Sorted tsGe demoStream ∧
    ∃ bs, bagged_events demoStream = some bs ∧
      List.Sorted (fun a b : BaggedEvent => b.timestamp ≤ a.timestamp) bs ∧
      bs.map BaggedEvent.command = firstOccurrences (demoStream.map Event.command) ∧
      ∀ b ∈ bs, ∃ e, demoStream.find? (fun x => decide (x.command = b.command)) = some e ∧
        b.timestamp = e.timestamp :=
  ⟨by decide, bagged_events_c10 demoStream (by decide)⟩

/-- The bag of four `ls` events of claim C3: exit codes 0, 0, 1, None at
timestamps 10, 20, 30, 40. -/
def lsBag : List Event :=
  [⟨10, [108, 115], none, some 0, none, none, none⟩,
   ⟨20, [108, 115], none, some 0, none, none, none⟩,
   ⟨30, [108, 115], none, some 1, none, none, none⟩,
   ⟨40, [108, 115], none, none, none, none, none⟩]

/-- Claim C3, evaluated at the claim's concrete input: the code yields
`failure_ratio = 1/2` and `unknown_ratio = 0` for exit codes `[0, 0, 1, None]`
(the `None` exit code satisfies Python's `e.exit_code != 0` and so counts as
a failure), where the claim requires `failure_ratio = 1/4` and
`unknown_ratio = 1/4`.  Count, success ratio and timestamp agree. -/
theorem from_bag_c3 :
    from_bag [108, 115] lsBag =
      some { timestamp := 40, command := [108, 115], count := 4,
             success_ratio := 1/2, failure_ratio := 1/2, unknown_ratio := 0 } ∧
    bagged_events lsBag =
      some [{ timestamp := 40, command := [108, 115], count := 4,
              success_ratio := 1/2, failure_ratio := 1/2, unknown_ratio := 0 }] := by
  constructor <;>
    · simp [from_bag, mkBag, bagged_events, bagGroups, addToBag, maxTs, lsBag,
        List.mapM, List.mapM.loop, List.countP, List.countP.go]
      norm_num

/-! ### Merge reader (`read_events_from_paths`) -/

/-- Modelled from the spec: one step of
`heapq.merge(*sources, key=timestamp, reverse=True)` (the heap itself is
Python library code): pop, among the non-empty sources, the first one whose
head has the maximal timestamp (ties go to the earlier source). -/
def popBest : List (List Event) → Option (Event × List (List Event))
  | [] => none
  | [] :: rest =>
    match popBest rest with
    | none => none
    | some (e, rest1) => some (e, [] :: rest1)
  | (x :: xs) :: rest =>
    match popBest rest with
    | none => some (x, xs :: rest)
    | some (e, rest1) =>
      if x.timestamp < e.timestamp then some (e, (x :: xs) :: rest1)
      else some (x, xs :: rest)

/-- Total number of events across the sources (the merge's fuel). -/
def totalLen (srcs : List (List Event)) : Nat := (srcs.map List.length).sum

def mergeAux : Nat → List (List Event) → List Event
  | 0, _ => []
  | fuel + 1, srcs =>
    match popBest srcs with
    | none => []
    | some (e, rest) => e :: mergeAux fuel rest

/-- Modelled from the spec: the merge reader `read_events_from_paths` — a
k-way merge of the sources, newest first, keyed by timestamp descending.
Each pop removes one event, so fuel `totalLen srcs` drains all sources. -/
def read_events_from_paths (srcs : List (List Event)) : List Event :=
  mergeAux (totalLen srcs) srcs

/-- The multiset union of the events of all sources. -/
def srcsM : List (List Event) → Multiset Event
  | [] => 0
  | s :: rest => (s : Multiset Event) + srcsM rest

theorem mem_srcsM (b : Event) : ∀ (srcs : List (List Event)),
    b ∈ srcsM srcs ↔ ∃ s ∈ srcs, b ∈ s := by
  intro srcs
  induction srcs with
  | nil =>
    constructor
    · intro h; exact absurd h (by simp [srcsM])
    · rintro ⟨s, hs, _⟩; exact absurd hs (List.not_mem_nil s)
  | cons hd tl ih =>
    rw [show srcsM (hd :: tl) = (hd : Multiset Event) + srcsM tl from rfl,
      Multiset.mem_add, Multiset.mem_coe, ih]
    constructor
    · rintro (h | ⟨s, hs, hbs⟩)
      · exact ⟨hd, List.mem_cons_self _ _, h⟩
      · exact ⟨s, List.mem_cons_of_mem _ hs, hbs⟩
    · rintro ⟨s, hs, hbs⟩
      rcases List.mem_cons.mp hs with rfl | hs'
      · exact Or.inl hbs
      · exact Or.inr ⟨s, hs', hbs⟩

theorem popBest_none : ∀ (srcs : List (List Event)), popBest srcs = none →
    ∀ s ∈ srcs, s = [] := by
  intro srcs
  induction srcs with
  | nil => intro _ s hs; exact absurd hs (List.not_mem_nil s)
  | cons hd tl ih =>
    cases hd with
    | nil =>
      intro h s hs
      rw [popBest] at h
      cases hpb : popBest tl with
      | none =>
        rcases List.mem_cons.mp hs with rfl | hs'
        · rfl
        · exact ih hpb s hs'
      | some pr => rw [hpb] at h; simp at h
    | cons x xs =>
      intro h
      rw [popBest] at h
      cases hpb : popBest tl with
      | none => rw [hpb] at h; simp at h
      | some pr =>
        obtain ⟨e1, rest1⟩ := pr
        rw [hpb] at h
        by_cases hlt : x.timestamp < e1.timestamp <;> simp [hlt] at h

theorem popBest_totalLen : ∀ (srcs : List (List Event)) (e : Event)
    (rest : List (List Event)), popBest srcs = some (e, rest) →
    totalLen srcs = totalLen rest + 1 := by
  intro srcs
  induction srcs with
  | nil => intro e rest h; simp [popBest] at h
  | cons hd tl ih =>
    intro e rest h
    cases hd with
    | nil =>
      rw [popBest] at h
      cases hpb : popBest tl with
      | none => rw [hpb] at h; simp at h
      | some pr =>
        obtain ⟨e1, rest1⟩ := pr
        rw [hpb] at h
        simp only [Option.some.injEq, Prod.mk.injEq] at h
        obtain ⟨rfl, rfl⟩ := h
        have := ih _ _ hpb
        simp only [totalLen, List.map_cons, List.sum_cons, List.length_nil] at this ⊢
        omega
    | cons x xs =>
      rw [popBest] at h
      cases hpb : popBest tl with
      | none =>
        rw [hpb] at h
        simp only [Option.some.injEq, Prod.mk.injEq] at h
        obtain ⟨rfl, rfl⟩ := h
        simp only [totalLen, List.map_cons, List.sum_cons, List.length_cons]
        omega
      | some pr =>
        obtain ⟨e1, rest1⟩ := pr
        rw [hpb] at h
        by_cases hlt : x.timestamp < e1.timestamp
        · simp only [if_pos hlt, Option.some.injEq, Prod.mk.injEq] at h
          obtain ⟨rfl, rfl⟩ := h
          have := ih _ _ hpb
          simp only [totalLen, List.map_cons, List.sum_cons, List.length_cons] at this ⊢
          omega
        · simp only [if_neg hlt, Option.some.injEq, Prod.mk.injEq] at h
          obtain ⟨rfl, rfl⟩ := h
          simp only [totalLen, List.map_cons, List.sum_cons, List.length_cons]
          omega

theorem popBest_srcsM : ∀ (srcs : List (List Event)) (e : Event)
    (rest : List (List Event)), popBest srcs = some (e, rest) →
    srcsM srcs = e ::ₘ srcsM rest := by
  intro srcs
  induction srcs with
  | nil => intro e rest h; simp [popBest] at h
  | cons hd tl ih =>
    intro e rest h
    cases hd with
    | nil =>
      rw [popBest] at h
      cases hpb : popBest tl with
      | none => rw [hpb] at h; simp at h
      | some pr =>
        obtain ⟨e1, rest1⟩ := pr
        rw [hpb] at h
        simp only [Option.some.injEq, Prod.mk.injEq] at h
        obtain ⟨rfl, rfl⟩ := h
        have := ih _ _ hpb
        rw [show srcsM (List.nil :: tl) = ((List.nil : List Event) : Multiset Event) + srcsM tl from rfl,
          show srcsM (List.nil :: rest1) = ((List.nil : List Event) : Multiset Event) + srcsM rest1 from rfl,
          this, Multiset.add_cons]
    | cons x xs =>
      rw [popBest] at h
      cases hpb : popBest tl with
      | none =>
        rw [hpb] at h
        simp only [Option.some.injEq, Prod.mk.injEq] at h
        obtain ⟨rfl, rfl⟩ := h
        rw [show srcsM ((x :: xs) :: tl) = ((x :: xs : List Event) : Multiset Event) + srcsM tl from rfl,
          show srcsM (xs :: tl) = (xs : Multiset Event) + srcsM tl from rfl,
          ← Multiset.cons_coe, Multiset.cons_add]
      | some pr =>
        obtain ⟨e1, rest1⟩ := pr
        rw [hpb] at h
        by_cases hlt : x.timestamp < e1.timestamp
        · simp only [if_pos hlt, Option.some.injEq, Prod.mk.injEq] at h
          obtain ⟨rfl, rfl⟩ := h
          have := ih _ _ hpb
          rw [show srcsM ((x :: xs) :: tl) = ((x :: xs : List Event) : Multiset Event) + srcsM tl from rfl,
            show srcsM ((x :: xs) :: rest1) = ((x :: xs : List Event) : Multiset Event) + srcsM rest1 from rfl,
            this, Multiset.add_cons]
        · simp only [if_neg hlt, Option.some.injEq, Prod.mk.injEq] at h
          obtain ⟨rfl, rfl⟩ := h
          rw [show srcsM ((x :: xs) :: tl) = ((x :: xs : List Event) : Multiset Event) + srcsM tl from rfl,
            show srcsM (xs :: tl) = (xs : Multiset Event) + srcsM tl from rfl,
            ← Multiset.cons_coe, Multiset.cons_add]

theorem popBest_max : ∀ (srcs : List (List Event)) (e : Event)
    (rest : List (List Event)), (∀ s ∈ srcs, List.Sorted tsGe s) →
    popBest srcs = some (e, rest) →
    ∀ s ∈ srcs, ∀ x ∈ s, x.timestamp ≤ e.timestamp := by
  intro srcs
  induction srcs with
  | nil => intro e rest _ h; simp [popBest] at h
  | cons hd tl ih =>
    intro e rest hs h
    have hstl : ∀ s ∈ tl, List.Sorted tsGe s := fun s hsm =>
      hs s (List.mem_cons_of_mem _ hsm)
    cases hd with
    | nil =>
      rw [popBest] at h
      cases hpb : popBest tl with
      | none => rw [hpb] at h; simp at h
      | some pr =>
        obtain ⟨e1, rest1⟩ := pr
        rw [hpb] at h
        simp only [Option.some.injEq, Prod.mk.injEq] at h
        obtain ⟨rfl, rfl⟩ := h
        intro s hsm x hx
        rcases List.mem_cons.mp hsm with rfl | hsm'
        · exact absurd hx (List.not_mem_nil x)
        · exact ih _ _ hstl hpb s hsm' x hx
    | cons y ys =>
      rw [popBest] at h
      cases hpb : popBest tl with
      | none =>
        rw [hpb] at h
        simp only [Option.some.injEq, Prod.mk.injEq] at h
        obtain ⟨rfl, rfl⟩ := h
        have hempty := popBest_none tl hpb
        intro s hsm x hx
        rcases List.mem_cons.mp hsm with rfl | hsm'
        · rcases List.mem_cons.mp hx with rfl | hx'
          · exact le_refl _
          · exact List.rel_of_sorted_cons (hs _ (List.mem_cons_self _ _)) x hx'
        · rw [hempty s hsm'] at hx; exact absurd hx (List.not_mem_nil x)
      | some pr =>
        obtain ⟨e1, rest1⟩ := pr
        rw [hpb] at h
        by_cases hlt : y.timestamp < e1.timestamp
        · simp only [if_pos hlt, Option.some.injEq, Prod.mk.injEq] at h
          obtain ⟨rfl, rfl⟩ := h
          intro s hsm x hx
          rcases List.mem_cons.mp hsm with rfl | hsm'
          · rcases List.mem_cons.mp hx with rfl | hx'
            · exact le_of_lt hlt
            · exact le_trans
                (List.rel_of_sorted_cons (hs _ (List.mem_cons_self _ _)) x hx')
                (le_of_lt hlt)
          · exact ih _ _ hstl hpb s hsm' x hx
        · simp only [if_neg hlt, Option.some.injEq, Prod.mk.injEq] at h
          obtain ⟨rfl, rfl⟩ := h
          push_neg at hlt
          intro s hsm x hx
          rcases List.mem_cons.mp hsm with rfl | hsm'
          · rcases List.mem_cons.mp hx with rfl | hx'
            · exact le_refl _
            · exact List.rel_of_sorted_cons (hs _ (List.mem_cons_self _ _)) x hx'
          · exact le_trans (ih _ _ hstl hpb s hsm' x hx) hlt

theorem popBest_sorted : ∀ (srcs : List (List Event)) (e : Event)
    (rest : List (List Event)), (∀ s ∈ srcs, List.Sorted tsGe s) →
    popBest srcs = some (e, rest) → ∀ s ∈ rest, List.Sorted tsGe s := by
  intro srcs
  induction srcs with
  | nil => intro e rest _ h; simp [popBest] at h
  | cons hd tl ih =>
    intro e rest hs h
    have hstl : ∀ s ∈ tl, List.Sorted tsGe s := fun s hsm =>
      hs s (List.mem_cons_of_mem _ hsm)
    cases hd with
    | nil =>
      rw [popBest] at h
      cases hpb : popBest tl with
      | none => rw [hpb] at h; simp at h
      | some pr =>
        obtain ⟨e1, rest1⟩ := pr
        rw [hpb] at h
        simp only [Option.some.injEq, Prod.mk.injEq] at h
        obtain ⟨rfl, rfl⟩ := h
        intro s hsm
        rcases List.mem_cons.mp hsm with rfl | hsm'
        · exact List.sorted_nil
        · exact ih _ _ hstl hpb s hsm'
    | cons y ys =>
      rw [popBest] at h
      cases hpb : popBest tl with
      | none =>
        rw [hpb] at h
        simp only [Option.some.injEq, Prod.mk.injEq] at h
        obtain ⟨rfl, rfl⟩ := h
        intro s hsm
        rcases List.mem_cons.mp hsm with rfl | hsm'
        · exact (hs _ (List.mem_cons_self _ _)).of_cons
        · exact hstl s hsm'
      | some pr =>
        obtain ⟨e1, rest1⟩ := pr
        rw [hpb] at h
        by_cases hlt : y.timestamp < e1.timestamp
        · simp only [if_pos hlt, Option.some.injEq, Prod.mk.injEq] at h
          obtain ⟨rfl, rfl⟩ := h
          intro s hsm
          rcases List.mem_cons.mp hsm with rfl | hsm'
          · exact hs _ (List.mem_cons_self _ _)
          · exact ih _ _ hstl hpb s hsm'
        · simp only [if_neg hlt, Option.some.injEq, Prod.mk.injEq] at h
          obtain ⟨rfl, rfl⟩ := h
          intro s hsm
          rcases List.mem_cons.mp hsm with rfl | hsm'
          · exact (hs _ (List.mem_cons_self _ _)).of_cons
          · exact hstl s hsm'

theorem totalLen_zero_all_nil : ∀ (srcs : List (List Event)), totalLen srcs = 0 →
    ∀ s ∈ srcs, s = [] := by
  intro srcs
  induction srcs with
  | nil => intro _ s hs; exact absurd hs (List.not_mem_nil s)
  | cons hd tl ih =>
    intro h s hs
    simp only [totalLen, List.map_cons, List.sum_cons] at h
    rcases List.mem_cons.mp hs with rfl | hs'
    · exact List.length_eq_zero.mp (by omega)
    · refine ih ?_ s hs'
      simp only [totalLen]
      omega

theorem srcsM_eq_zero : ∀ (srcs : List (List Event)), (∀ s ∈ srcs, s = []) →
    srcsM srcs = 0 := by
  intro srcs
  induction srcs with
  | nil => intro _; rfl
  | cons hd tl ih =>
    intro h
    rw [show srcsM (hd :: tl) = (hd : Multiset Event) + srcsM tl from rfl,
      h hd (List.mem_cons_self _ _), ih fun s hs => h s (List.mem_cons_of_mem _ hs)]
    rfl

/-- The merge, run with fuel equal to the total source length, is
newest-first sorted and preserves the multiset of events. -/
theorem mergeAux_spec : ∀ (fuel : Nat) (srcs : List (List Event)),
    totalLen srcs = fuel → (∀ s ∈ srcs, List.Sorted tsGe s) →
    List.Sorted tsGe (mergeAux fuel srcs) ∧
      ((mergeAux fuel srcs : List Event) : Multiset Event) = srcsM srcs := by
  intro fuel
  induction fuel with
  | zero =>
    intro srcs hlen _
    refine ⟨List.sorted_nil, ?_⟩
    rw [srcsM_eq_zero srcs (totalLen_zero_all_nil srcs hlen)]
    rfl
  | succ fuel ih =>
    intro srcs hlen hs
    rw [mergeAux]
    cases hpb : popBest srcs with
    | none =>
      refine ⟨List.sorted_nil, ?_⟩
      rw [srcsM_eq_zero srcs (popBest_none srcs hpb)]
      rfl
    | some pr =>
      obtain ⟨e, rest⟩ := pr
      have hlen' : totalLen rest = fuel := by
        have := popBest_totalLen srcs e rest hpb; omega
      have hrest := popBest_sorted srcs e rest hs hpb
      obtain ⟨ihs, ihm⟩ := ih rest hlen' hrest
      constructor
      · rw [List.sorted_cons]
        refine ⟨?_, ihs⟩
        intro b hb
        have hbm : b ∈ srcsM rest := by rw [← ihm]; exact Multiset.mem_coe.mpr hb
        have hball : b ∈ srcsM srcs := by
          rw [popBest_srcsM srcs e rest hpb]
          exact Multiset.mem_cons_of_mem hbm
        obtain ⟨s0, hs0, hbs0⟩ := (mem_srcsM b srcs).mp hball
        exact popBest_max srcs e rest hs hpb s0 hs0 b hbs0
      · rw [← Multiset.cons_coe, ihm, popBest_srcsM srcs e rest hpb]

/-- Claim C5: for sources each individually ordered newest-first, the merge
reader produces a single newest-first sequence whose multiset of events is
the multiset union of the inputs. -/
theorem read_events_from_paths_c5 (srcs : List (List Event))
    (hs : ∀ s ∈ srcs, List.Sorted tsGe s) :
    List.Sorted tsGe (read_events_from_paths srcs) ∧
      ((read_events_from_paths srcs : List Event) : Multiset Event) = srcsM srcs :=
  mergeAux_spec (totalLen srcs) srcs rfl hs

/-- The three sources of the C5 example: `[5, 3, 1]`, `[4, 2]`, `[6]`. -/
def demoSrcs : List (List Event) :=
  [[⟨5, [], none, none, none, none, none⟩, ⟨3, [], none, none, none, none, none⟩,
    ⟨1, [], none, none, none, none, none⟩],
   [⟨4, [], none, none, none, none, none⟩, ⟨2, [], none, none, none, none, none⟩],
   [⟨6, [], none, none, none, none, none⟩]]

/-- Witness for C5 at the claim's concrete example; the merged output is
exactly `[6, 5, 4, 3, 2, 1]`. -/
theorem read_events_from_paths_c5_witness :
    (∀ s ∈ demoSrcs, List.Sorted tsGe s) ∧
    read_events_from_paths demoSrcs =
      [⟨6, [], none, none, none, none, none⟩, ⟨5, [], none, none, none, none, none⟩,
       ⟨4, [], none, none, none, none, none⟩, ⟨3, [], none, none, none, none, none⟩,
       ⟨2, [], none, none, none, none, none⟩, ⟨1, [], none, none, none, none, none⟩] ∧
    (List.Sorted tsGe (read_events_from_paths demoSrcs) ∧
      ((read_events_from_paths demoSrcs : List Event) : Multiset Event) = srcsM demoSrcs) :=
  ⟨by decide, by decide, read_events_from_paths_c5 demoSrcs (by decide)⟩

/-- Claim C9: the human-duration formatter produces exactly "500ms", "1s",
"2m", "1h", "1D", "1W", "1Y" on inputs 0.5 s, 1.4 s, 125 s, 3600 s, 90000 s,
604800 s, 31536000 s, and for every delta the value shown is a
nearest-integer rounding in the chosen unit (the unit's scale in seconds is
listed alongside its suffix). -/
theorem human_duration_c9 :
    human_duration (1/2) = "500ms" ∧ human_duration (7/5) = "1s" ∧
    human_duration 125 = "2m" ∧ human_duration 3600 = "1h" ∧
    human_duration 90000 = "1D" ∧ human_duration 604800 = "1W" ∧
    human_duration 31536000 = "1Y" ∧
    ∀ q : ℚ, ∃ (n : ℤ) (u : String) (scale : ℚ),
      (u, scale) ∈ [("ms", 1000), ("s", 1), ("m", 1/60), ("h", 1/3600),
        ("D", 1/86400), ("W", 1/604800), ("Y", 1/31536000)] ∧
      human_duration q = toString n ++ u ∧ |q * scale - (n : ℚ)| ≤ 1/2 := by
  refine ⟨?_, ?_, ?_, ?_, ?_, ?_, ?_, ?_⟩
  · rw [human_duration]; norm_num [py_round]; rfl
  · rw [human_duration]; norm_num [py_round]; rfl
  · rw [human_duration]; norm_num [py_round]; rfl
  · rw [human_duration]; norm_num [py_round]; rfl
  · rw [human_duration]; norm_num [py_round]; rfl
  · rw [human_duration]; norm_num [py_round]; rfl
  · rw [human_duration]; norm_num [py_round]; rfl
  intro q
  simp only [human_duration]
  split_ifs
  · refine ⟨py_round (q * 1000), "ms", 1000, by simp, rfl, py_round_abs _⟩
  · refine ⟨py_round (q * 1000 / 1000), "s", 1, by simp, rfl, ?_⟩
    have h : q * (1 : ℚ) = q * 1000 / 1000 := by ring
    rw [h]; exact py_round_abs _
  · refine ⟨py_round (q * 1000 / 1000 / 60), "m", 1/60, by simp, rfl, ?_⟩
    have h : q * (1/60 : ℚ) = q * 1000 / 1000 / 60 := by ring
    rw [h]; exact py_round_abs _
  · refine ⟨py_round (q * 1000 / 1000 / 60 / 60), "h", 1/3600, by simp, rfl, ?_⟩
    have h : q * (1/3600 : ℚ) = q * 1000 / 1000 / 60 / 60 := by ring
    rw [h]; exact py_round_abs _
  · refine ⟨py_round (q * 1000 / 1000 / 60 / 60 / 24), "D", 1/86400, by simp, rfl, ?_⟩
    have h : q * (1/86400 : ℚ) = q * 1000 / 1000 / 60 / 60 / 24 := by ring
    rw [h]; exact py_round_abs _
  · refine ⟨py_round (q * 1000 / 1000 / 60 / 60 / 24 / 7), "W", 1/604800, by simp, rfl, ?_⟩
    have h : q * (1/604800 : ℚ) = q * 1000 / 1000 / 60 / 60 / 24 / 7 := by ring
    rw [h]; exact py_round_abs _
  · refine ⟨py_round (q * 1000 / 1000 / 60 / 60 / 24 / 365), "Y", 1/31536000, by simp, rfl, ?_⟩
    have h : q * (1/31536000 : ℚ) = q * 1000 / 1000 / 60 / 60 / 24 / 365 := by ring
    rw [h]; exact py_round_abs _

/-! ### The event codec

Modelled from the spec: the `msgspec.msgpack` codec (library code) — a
self-describing msgpack encoding of the tagged struct, tag field `version`
with tag `v1`, fields in order timestamp, command, duration, exit_code,
folder, machine, session.  Struct fields are a msgpack fixmap of 8 entries
with fixstr keys; the timestamp is the msgpack timestamp96 extension
(`ext8`, length 12, type -1: u32 nanoseconds then i64 seconds); strings use
`str32`; integers use fixed-width `int64`; a float is `float64` carrying its
bit pattern; `None` is `nil`.  A compliant encoder may always choose the
widest forms, which this model does. -/

/-- Big-endian 4-byte encoding of `n < 2 ^ 32`. -/
def natBytes4 (n : Nat) : List Nat :=
  [n / 2 ^ 24 % 256, n / 2 ^ 16 % 256, n / 2 ^ 8 % 256, n % 256]

/-- Big-endian 8-byte encoding of `n < 2 ^ 64`. -/
def natBytes8 (n : Nat) : List Nat :=
  [n / 2 ^ 56 % 256, n / 2 ^ 48 % 256, n / 2 ^ 40 % 256, n / 2 ^ 32 % 256,
   n / 2 ^ 24 % 256, n / 2 ^ 16 % 256, n / 2 ^ 8 % 256, n % 256]

/-- `int.from_bytes(_, byteorder="big", signed=False)`. -/
def intFromBytes (l : List Nat) : Nat := l.foldl (fun a b => 256 * a + b) 0

theorem intFromBytes_natBytes4 (n : Nat) (h : n < 2 ^ 32) :
    intFromBytes (natBytes4 n) = n := by
  simp only [intFromBytes, natBytes4, List.foldl_cons, List.foldl_nil]
  omega

theorem intFromBytes_natBytes8 (n : Nat) (h : n < 2 ^ 64) :
    intFromBytes (natBytes8 n) = n := by
  simp only [intFromBytes, natBytes8, List.foldl_cons, List.foldl_nil]
  omega

/-- Two's-complement 8-byte encoding of an `int64`-range integer. -/
def int64Bytes (i : Int) : Option (List Nat) :=
  if -(2 ^ 63) ≤ i ∧ i < 2 ^ 63 then some (natBytes8 (i % 2 ^ 64).toNat) else none

/-- Read 8 bytes back as a signed 64-bit integer. -/
def signedFromBytes (l : List Nat) : Int :=
  if intFromBytes l < 2 ^ 63 then (intFromBytes l : Int)
  else (intFromBytes l : Int) - 2 ^ 64

theorem int64Bytes_length (i : Int) (l : List Nat) (h : int64Bytes i = some l) :
    l.length = 8 := by
  rw [int64Bytes] at h
  split_ifs at h with hr
  · cases h; rfl

theorem signedFromBytes_int64Bytes (i : Int) (l : List Nat)
    (h : int64Bytes i = some l) : signedFromBytes l = i := by
  rw [int64Bytes] at h
  split_ifs at h with hr
  · obtain ⟨h1, h2⟩ := hr
    cases h
    have hb : (i % 2 ^ 64).toNat < 2 ^ 64 := by omega
    rw [signedFromBytes, intFromBytes_natBytes8 _ hb]
    split_ifs with hlt <;> omega

/-- msgpack fixstr key `version`. -/
def kVersion : List Nat := [0xa7, 118, 101, 114, 115, 105, 111, 110]
/-- msgpack fixstr value `v1`. -/
def vV1 : List Nat := [0xa2, 118, 49]
/-- msgpack fixstr key `timestamp`. -/
def kTimestamp : List Nat := [0xa9, 116, 105, 109, 101, 115, 116, 97, 109, 112]
/-- msgpack fixstr key `command`. -/
def kCommand : List Nat := [0xa7, 99, 111, 109, 109, 97, 110, 100]
/-- msgpack fixstr key `duration`. -/
def kDuration : List Nat := [0xa8, 100, 117, 114, 97, 116, 105, 111, 110]
/-- msgpack fixstr key `exit_code`. -/
def kExitCode : List Nat := [0xa9, 101, 120, 105, 116, 95, 99, 111, 100, 101]
/-- msgpack fixstr key `folder`. -/
def kFolder : List Nat := [0xa6, 102, 111, 108, 100, 101, 114]
/-- msgpack fixstr key `machine`. -/
def kMachine : List Nat := [0xa7, 109, 97, 99, 104, 105, 110, 101]
/-- msgpack fixstr key `session`. -/
def kSession : List Nat := [0xa7, 115, 101, 115, 115, 105, 111, 110]
/-- The payload prefix: fixmap-8 header, then `version: "v1"`, then the
`timestamp` key. -/
def hdrPrefix : List Nat := 0x88 :: (kVersion ++ vV1 ++ kTimestamp)

/-- msgpack `str32` of a byte string. -/
def encStr (s : List Nat) : Option (List Nat) :=
  if s.length < 2 ^ 32 then some (0xdb :: (natBytes4 s.length ++ s)) else none

/-- An optional string: `nil` or `str32`. -/
def encOptStr : Option (List Nat) → Option (List Nat)
  | none => some [0xc0]
  | some s => encStr s

/-- An optional integer: `nil` or `int64`. -/
def encOptInt : Option Int → Option (List Nat)
  | none => some [0xc0]
  | some i => (int64Bytes i).map (fun b => 0xd3 :: b)

/-- The duration: `nil`, `int64`, or `float64` (bit pattern). -/
def encDuration : Option (Int ⊕ Nat) → Option (List Nat)
  | none => some [0xc0]
  | some (Sum.inl i) => (int64Bytes i).map (fun b => 0xd3 :: b)
  | some (Sum.inr bits) => if bits < 2 ^ 64 then some (0xcb :: natBytes8 bits) else none

/-- The timestamp96 extension: `ext8` of length 12, type -1, u32 nanoseconds
then i64 seconds (euclidean div/mod of the nanosecond timestamp). -/
def encTimestamp (t : Int) : Option (List Nat) :=
  (int64Bytes (t / 10 ^ 9)).map
    (fun sb => 0xc7 :: 12 :: 0xff :: (natBytes4 (t % 10 ^ 9).toNat ++ sb))

/-- `encoder.encode(event)` (`msgspec.msgpack.Encoder`), modelled from the
spec; `none` when a value is outside the representable range (the library
raises there). -/
def encodeEvent (e : Event) : Option (List Nat) := do
  let tsB ← encTimestamp e.timestamp
  let cmdB ← encStr e.command
  let durB ← encDuration e.duration
  let ecB ← encOptInt e.exit_code
  let foB ← encOptStr e.folder
  let maB ← encOptStr e.machine
  let seB ← encOptStr e.session
  pure (hdrPrefix ++ (tsB ++ (kCommand ++ (cmdB ++ (kDuration ++ (durB ++
    (kExitCode ++ (ecB ++ (kFolder ++ (foB ++ (kMachine ++ (maB ++
    (kSession ++ seB)))))))))))))

/-- Consume an expected constant byte sequence. -/
def expectBytes (pat l : List Nat) : Option (List Nat) :=
  if l.take pat.length = pat then some (l.drop pat.length) else none

/-- Consume exactly `n` bytes. -/
def readN (n : Nat) (l : List Nat) : Option (List Nat × List Nat) :=
  if n ≤ l.length then some (l.take n, l.drop n) else none

/-- Parse a `str32`. -/
def decStr (l : List Nat) : Option (List Nat × List Nat) :=
  match l with
  | [] => none
  | t :: rest =>
    if t = 0xdb then do
      let (lb, r1) ← readN 4 rest
      readN (intFromBytes lb) r1
    else none

/-- Parse `nil` or a `str32`. -/
def decOptStr (l : List Nat) : Option (Option (List Nat) × List Nat) :=
  match l with
  | [] => none
  | t :: rest =>
    if t = 0xc0 then some (none, rest)
    else (decStr (t :: rest)).map (fun p => (some p.1, p.2))

/-- Parse `nil` or an `int64`. -/
def decOptInt (l : List Nat) : Option (Option Int × List Nat) :=
  match l with
  | [] => none
  | t :: rest =>
    if t = 0xc0 then some (none, rest)
    else if t = 0xd3 then
      (readN 8 rest).map (fun p => (some (signedFromBytes p.1), p.2))
    else none

/-- Parse `nil`, an `int64`, or a `float64`. -/
def decDuration (l : List Nat) : Option (Option (Int ⊕ Nat) × List Nat) :=
  match l with
  | [] => none
  | t :: rest =>
    if t = 0xc0 then some (none, rest)
    else if t = 0xd3 then
      (readN 8 rest).map (fun p => (some (Sum.inl (signedFromBytes p.1)), p.2))
    else if t = 0xcb then
      (readN 8 rest).map (fun p => (some (Sum.inr (intFromBytes p.1)), p.2))
    else none

/-- Parse the timestamp96 extension. -/
def decTimestamp (l : List Nat) : Option (Int × List Nat) := do
  let r0 ← expectBytes [0xc7, 12, 0xff] l
  let (nb, r1) ← readN 4 r0
  let (sb, r2) ← readN 8 r1
  pure (signedFromBytes sb * 10 ^ 9 + intFromBytes nb, r2)

/-- `event_decoder.decode` (`msgspec.msgpack.Decoder(type=Event)`), modelled
from the spec: parses exactly one v1 payload, failing on anything else. -/
def decodeEvent (l : List Nat) : Option Event :=
  (expectBytes hdrPrefix l).bind fun r0 =>
  (decTimestamp r0).bind fun p1 =>
  (expectBytes kCommand p1.2).bind fun r2 =>
  (decStr r2).bind fun p3 =>
  (expectBytes kDuration p3.2).bind fun r4 =>
  (decDuration r4).bind fun p5 =>
  (expectBytes kExitCode p5.2).bind fun r6 =>
  (decOptInt r6).bind fun p7 =>
  (expectBytes kFolder p7.2).bind fun r8 =>
  (decOptStr r8).bind fun p9 =>
  (expectBytes kMachine p9.2).bind fun r10 =>
  (decOptStr r10).bind fun p11 =>
  (expectBytes kSession p11.2).bind fun r12 =>
  (decOptStr r12).bind fun p13 =>
  if p13.2 = [] then some ⟨p1.1, p3.1, p5.1, p7.1, p9.1, p11.1, p13.1⟩ else none

theorem natBytes4_length (n : Nat) : (natBytes4 n).length = 4 := rfl

theorem natBytes8_length (n : Nat) : (natBytes8 n).length = 8 := rfl

theorem expectBytes_append (pat rest : List Nat) :
    expectBytes pat (pat ++ rest) = some rest := by
  rw [expectBytes, if_pos (List.take_left pat rest), List.drop_left]

theorem readN_append (xs rest : List Nat) :
    readN xs.length (xs ++ rest) = some (xs, rest) := by
  rw [readN, if_pos (by simp), List.take_left, List.drop_left]

theorem readN4_natBytes4 (n : Nat) (rest : List Nat) :
    readN 4 (natBytes4 n ++ rest) = some (natBytes4 n, rest) :=
  readN_append (natBytes4 n) rest

theorem readN8_natBytes8 (n : Nat) (rest : List Nat) :
    readN 8 (natBytes8 n ++ rest) = some (natBytes8 n, rest) :=
  readN_append (natBytes8 n) rest

theorem decStr_enc (s out : List Nat) (h : encStr s = some out) :
    ∀ rest, decStr (out ++ rest) = some (s, rest) := by
  intro rest
  rw [encStr] at h
  split_ifs at h with hlen
  cases h
  simp [decStr, List.append_assoc, Option.bind_eq_bind, readN4_natBytes4,
    intFromBytes_natBytes4 _ hlen, readN_append]

theorem decOptStr_enc (o : Option (List Nat)) (out : List Nat)
    (h : encOptStr o = some out) :
    ∀ rest, decOptStr (out ++ rest) = some (o, rest) := by
  intro rest
  cases o with
  | none =>
    cases h
    simp [decOptStr]
  | some s =>
    have hX : ∃ X, out = 0xdb :: X := by
      rw [encOptStr, encStr] at h
      split_ifs at h with hlen
      cases h
      exact ⟨_, rfl⟩
    obtain ⟨X, rfl⟩ := hX
    rw [List.cons_append, decOptStr, if_neg (by decide), ← List.cons_append,
      decStr_enc s _ h rest]
    rfl

theorem decOptInt_enc (o : Option Int) (out : List Nat)
    (h : encOptInt o = some out) :
    ∀ rest, decOptInt (out ++ rest) = some (o, rest) := by
  intro rest
  cases o with
  | none =>
    cases h
    simp [decOptInt]
  | some i =>
    rw [encOptInt] at h
    cases hb : int64Bytes i with
    | none => rw [hb] at h; cases h
    | some b =>
      rw [hb] at h
      cases h
      rw [List.cons_append, decOptInt, if_neg (by decide), if_pos rfl]
      rw [show readN 8 (b ++ rest) = some (b, rest) from
        int64Bytes_length i b hb ▸ readN_append b rest]
      simp [signedFromBytes_int64Bytes i b hb]

theorem decDuration_enc (o : Option (Int ⊕ Nat)) (out : List Nat)
    (h : encDuration o = some out) :
    ∀ rest, decDuration (out ++ rest) = some (o, rest) := by
  intro rest
  match o with
  | none =>
    cases h
    simp [decDuration]
  | some (Sum.inl i) =>
    rw [encDuration] at h
    cases hb : int64Bytes i with
    | none => rw [hb] at h; cases h
    | some b =>
      rw [hb] at h
      cases h
      rw [List.cons_append, decDuration, if_neg (by decide), if_pos rfl]
      rw [show readN 8 (b ++ rest) = some (b, rest) from
        int64Bytes_length i b hb ▸ readN_append b rest]
      simp [signedFromBytes_int64Bytes i b hb]
  | some (Sum.inr bits) =>
    rw [encDuration] at h
    split_ifs at h with hr
    cases h
    rw [List.cons_append, decDuration, if_neg (by decide), if_neg (by decide),
      if_pos rfl]
    simp [List.append_assoc, readN8_natBytes8, intFromBytes_natBytes8 _ hr]

theorem expectBytes_cons3 (a b c : Nat) (rest : List Nat) :
    expectBytes [a, b, c] (a :: b :: c :: rest) = some rest := by
  have h := expectBytes_append [a, b, c] rest
  simpa using h

theorem decTimestamp_enc (t : Int) (out : List Nat)
    (h : encTimestamp t = some out) :
    ∀ rest, decTimestamp (out ++ rest) = some (t, rest) := by
  intro rest
  rw [encTimestamp] at h
  cases hb : int64Bytes (t / 10 ^ 9) with
  | none => rw [hb] at h; cases h
  | some sb =>
    rw [hb] at h
    cases h
    have hsigned := signedFromBytes_int64Bytes _ _ hb
    have htoNat : (t % 10 ^ 9).toNat < 2 ^ 32 := by omega
    rw [decTimestamp]
    simp only [List.cons_append, List.append_assoc]
    rw [expectBytes_cons3]
    simp only [Option.bind_eq_bind, Option.some_bind', readN4_natBytes4]
    rw [show readN 8 (sb ++ rest) = some (sb, rest) from
      int64Bytes_length _ sb hb ▸ readN_append sb rest]
    simp only [Option.some_bind', hsigned, intFromBytes_natBytes4 _ htoNat]
    simp only [Option.pure_def, Option.some.injEq, Prod.mk.injEq]
    refine ⟨?_, trivial⟩
    omega

/-- The codec round-trip, as a reusable lemma: decoding any encoded payload
recovers the event. -/
theorem decode_enc_aux (e : Event) (data : List Nat)
    (h : encodeEvent e = some data) : decodeEvent data = some e := by
  rw [encodeEvent] at h
  cases hts : encTimestamp e.timestamp with
  | none => rw [hts] at h; simp at h
  | some tsB =>
  rw [hts] at h
  simp only [Option.bind_eq_bind, Option.some_bind'] at h
  cases hcmd : encStr e.command with
  | none => rw [hcmd] at h; simp at h
  | some cmdB =>
  rw [hcmd] at h
  simp only [Option.some_bind'] at h
  cases hdur : encDuration e.duration with
  | none => rw [hdur] at h; simp at h
  | some durB =>
  rw [hdur] at h
  simp only [Option.some_bind'] at h
  cases hec : encOptInt e.exit_code with
  | none => rw [hec] at h; simp at h
  | some ecB =>
  rw [hec] at h
  simp only [Option.some_bind'] at h
  cases hfo : encOptStr e.folder with
  | none => rw [hfo] at h; simp at h
  | some foB =>
  rw [hfo] at h
  simp only [Option.some_bind'] at h
  cases hma : encOptStr e.machine with
  | none => rw [hma] at h; simp at h
  | some maB =>
  rw [hma] at h
  simp only [Option.some_bind'] at h
  cases hse : encOptStr e.session with
  | none => rw [hse] at h; simp at h
  | some seB =>
  rw [hse] at h
  simp only [Option.some_bind', Option.pure_def, Option.some.injEq] at h
  subst h
  have hse' : decOptStr seB = some (e.session, []) := by
    have := decOptStr_enc _ _ hse []
    rwa [List.append_nil] at this
  rw [decodeEvent]
  simp only [expectBytes_append, Option.some_bind', decTimestamp_enc _ _ hts,
    decStr_enc _ _ hcmd, decDuration_enc _ _ hdur, decOptInt_enc _ _ hec,
    decOptStr_enc _ _ hfo, decOptStr_enc _ _ hma, hse']
  rfl

/-- Claim C6: the codec round-trips — decoding an encoded event recovers the
event, structurally on all seven fields, whenever the payload fits in a
frame. -/
theorem decodeEvent_encodeEvent (e : Event) (data : List Nat)
    (h : encodeEvent e = some data) (_hsize : data.length ≤ 65535) :
    decodeEvent data = some e :=
  decode_enc_aux e data h

/-- A fully-populated concrete event for the C6 witness: timestamp with
sub-second precision, a float duration (bit pattern), exit code 0, folder
`/home`, machine `box`, session `s1`. -/
def demoEvent : Event :=
  ⟨1700000000500000000, [108, 115], some (Sum.inr 4638387860618067575), some 0,
   some [47, 104, 111, 109, 101], some [98, 111, 120], some [115, 49]⟩

set_option maxRecDepth 4000 in
/-- Witness for C6 at a concrete event with every field present. -/
theorem decodeEvent_encodeEvent_witness :
    ∃ data, encodeEvent demoEvent = some data ∧ data.length ≤ 65535 ∧
      decodeEvent data = some demoEvent :=
  ⟨_, rfl, by decide, decodeEvent_encodeEvent demoEvent _ rfl (by decide)⟩

/-! ### The `.osh` byte file layer (`append`, `forward_write`,
`reverse_scan`, `insert`) -/

/-- `size.to_bytes(length=2, byteorder="big", signed=False)`: raises
`OverflowError` (here `none`) for `n ≥ 2 ^ 16`. -/
def sizeBytes2 (n : Nat) : Option (List Nat) :=
  if n < 2 ^ 16 then some [n / 256, n % 256] else none

/-- Python `mm[a:b]` on a byte list (non-negative indices). -/
def pySlice (l : List Nat) (a b : Nat) : List Nat := (l.drop a).take (b - a)

/-- `append_osh_event(event, file)`: encode; silently drop if
`size > 2 ** 16`; else write `payload ‖ size` (where `to_bytes` raises for
`size = 2 ** 16`, the code's guard being off by one). -/
def append_osh_event (e : Event) (file : List Nat) : Except OshErr (List Nat) :=
  match encodeEvent e with
  | none => .error .encodeFail
  | some data =>
    if data.length > 2 ^ 16 then .ok file
    else
      match sizeBytes2 data.length with
      | none => .error .overflow
      | some sb => .ok (file ++ data ++ sb)

/-- `write_osh_events(forward_events, path, lock)`: truncate, then append
each event in order. -/
def write_osh_events (forward_events : List Event) : Except OshErr (List Nat) :=
  forward_events.foldlM (fun f e => append_osh_event e f) []

/-- The reverse-scan loop of `read_osh_events`: `at = len(mm) - 2`, and
while `at > 0`, read the size word at `[at, at+2)`, decode the payload at
`[at-size, at)`, step to `at - size - 2`.  The fuel only bounds the
iteration count; every iteration strictly decreases `at`, so any fuel at
least the starting offset gives the loop's true result (fuel-irrelevance is
proved below). -/
def read_osh_go (file : List Nat) : Nat → Nat → Except OshErr (List Event)
  | _, 0 => .ok []
  | 0, _ + 1 => .error .corrupt
  | fuel + 1, pos =>
    let size := intFromBytes (pySlice file pos (pos + 2))
    match decodeEvent (pySlice file (pos - size) pos) with
    | none => .error .corrupt
    | some e => (read_osh_go file fuel (pos - size - 2)).map (fun es => e :: es)

/-- `read_osh_events(path, lock)`, yielding the whole reverse scan as a
list (newest first).  `mmap.mmap` raises `ValueError` on an empty file. -/
def read_osh_events (file : List Nat) : Except OshErr (List Event) :=
  if file.length = 0 then .error .mmapEmpty
  else read_osh_go file file.length (file.length - 2)

/-- The tail-scan loop of `insert_osh_event`: starting at `insert_at  =
mm.size()`, while `insert_at > 0` read the size word at
`[insert_at-2, insert_at)` and decode the frame before it; stop at the
first frame whose timestamp is `≤` the new event's. -/
def find_insert_at (file : List Nat) (t : Int) : Nat → Nat → Except OshErr Nat
  | _, 0 => .ok 0
  | 0, _ + 1 => .error .corrupt
  | fuel + 1, pos =>
    let size := intFromBytes (pySlice file (pos - 2) pos)
    match decodeEvent (pySlice file (pos - 2 - size) (pos - 2)) with
    | none => .error .corrupt
    | some entry =>
      if entry.timestamp ≤ t then .ok pos
      else find_insert_at file t fuel (pos - 2 - size)

/-- `insert_osh_event(event, path, lock)`: a missing or empty file is
initialised by `write_osh_events([event])`; otherwise scan from the tail
for the insertion offset, then (encode; drop silently if
`size > 2 ** 16`; `to_bytes` raises at exactly `2 ** 16`) resize, shift
the suffix and write `payload ‖ size` at the offset. -/
def insert_osh_event (e : Event) (file : List Nat) : Except OshErr (List Nat) :=
  if file.length = 0 then write_osh_events [e]
  else
    match find_insert_at file e.timestamp file.length file.length with
    | .error err => .error err
    | .ok insert_at =>
      match encodeEvent e with
      | none => .error .encodeFail
      | some data =>
        if data.length > 2 ^ 16 then .ok file
        else
          match sizeBytes2 data.length with
          | none => .error .overflow
          | some sb => .ok (file.take insert_at ++ data ++ sb ++ file.drop insert_at)

/-- The frame of one event: `payload ‖ size` (2-byte big-endian size),
defined when the payload fits. -/
def frameOf (e : Event) : Option (List Nat) :=
  (encodeEvent e).bind fun data => (sizeBytes2 data.length).map fun sb => data ++ sb

/-- The byte image of a forward (oldest-first) event list: the
concatenation of the frames, when every frame fits. -/
def eventsBytes (es : List Event) : Option (List Nat) :=
  (es.mapM frameOf).map List.flatten

/-- A command of 65439 bytes: its payload is exactly 65,536 bytes. -/
def bigCmd : List Nat := List.replicate 65439 97

/-- The event whose encoded payload is exactly `2 ^ 16` bytes. -/
def bigEvent : Event := ⟨0, bigCmd, none, none, none, none, none⟩

/-- A command of 65440 bytes: its payload is 65,537 bytes. -/
def bigCmd2 : List Nat := List.replicate 65440 97

/-- The event whose encoded payload is `2 ^ 16 + 1` bytes. -/
def bigEvent2 : Event := ⟨0, bigCmd2, none, none, none, none, none⟩

/-- The payload of `bigEvent`, spelled out. -/
def bigPayload : List Nat :=
  hdrPrefix ++ (([0xc7, 12, 0xff] ++ (natBytes4 0 ++ natBytes8 0)) ++ (kCommand ++
    (([0xdb] ++ (natBytes4 65439 ++ bigCmd)) ++ (kDuration ++ ([0xc0] ++ (kExitCode ++
    ([0xc0] ++ (kFolder ++ ([0xc0] ++ (kMachine ++ ([0xc0] ++ (kSession ++
    [0xc0]))))))))))))

/-- The payload of `bigEvent2`, spelled out. -/
def bigPayload2 : List Nat :=
  hdrPrefix ++ (([0xc7, 12, 0xff] ++ (natBytes4 0 ++ natBytes8 0)) ++ (kCommand ++
    (([0xdb] ++ (natBytes4 65440 ++ bigCmd2)) ++ (kDuration ++ ([0xc0] ++ (kExitCode ++
    ([0xc0] ++ (kFolder ++ ([0xc0] ++ (kMachine ++ ([0xc0] ++ (kSession ++
    [0xc0]))))))))))))

theorem encodeEvent_bigEvent : encodeEvent bigEvent = some bigPayload := by
  have hlen : bigCmd.length = 65439 := by
    rw [bigCmd]; exact List.length_replicate _ _
  have hcmd : encStr bigCmd = some (0xdb :: (natBytes4 65439 ++ bigCmd)) := by
    rw [encStr, if_pos (by rw [hlen]; norm_num), hlen]
  rw [encodeEvent]
  simp only [bigEvent]
  rw [show encTimestamp 0 = some (0xc7 :: 12 :: 0xff :: (natBytes4 0 ++ natBytes8 0))
    from rfl]
  rw [hcmd]
  rfl

theorem encodeEvent_bigEvent2 : encodeEvent bigEvent2 = some bigPayload2 := by
  have hlen : bigCmd2.length = 65440 := by
    rw [bigCmd2]; exact List.length_replicate _ _
  have hcmd : encStr bigCmd2 = some (0xdb :: (natBytes4 65440 ++ bigCmd2)) := by
    rw [encStr, if_pos (by rw [hlen]; norm_num), hlen]
  rw [encodeEvent]
  simp only [bigEvent2]
  rw [show encTimestamp 0 = some (0xc7 :: 12 :: 0xff :: (natBytes4 0 ++ natBytes8 0))
    from rfl]
  rw [hcmd]
  rfl

theorem bigCmd_length : bigCmd.length = 65439 := by
  rw [bigCmd]; exact List.length_replicate _ _

theorem bigCmd2_length : bigCmd2.length = 65440 := by
  rw [bigCmd2]; exact List.length_replicate _ _

theorem bigPayload_length : bigPayload.length = 65536 := by
  rw [bigPayload]
  simp only [List.length_append, bigCmd_length]
  rfl

theorem bigPayload2_length : bigPayload2.length = 65537 := by
  rw [bigPayload2]
  simp only [List.length_append, bigCmd2_length]
  rfl

/-- Claim C4, evaluated at the failing input: an event whose payload is
exactly 65,536 bytes passes the code's `size > 2 ** 16` guard, and
`size.to_bytes(length=2)` then raises `OverflowError` — in both `append`
and `insert` — where the claim requires a silent drop for every payload
over 65,535 bytes.  For payloads of 65,537 bytes and more the silent drop
does happen (third conjunct). -/
theorem append_insert_overflow_c4 :
    append_osh_event bigEvent [] = .error .overflow ∧
    insert_osh_event bigEvent [] = .error .overflow ∧
    append_osh_event bigEvent2 [] = .ok [] := by
  have h1 : append_osh_event bigEvent [] = .error .overflow := by
    rw [append_osh_event, encodeEvent_bigEvent]
    dsimp only
    rw [bigPayload_length]
    norm_num [sizeBytes2]
  refine ⟨h1, ?_, ?_⟩
  · rw [insert_osh_event, if_pos (show ([] : List Nat).length = 0 from rfl)]
    rw [write_osh_events, List.foldlM_cons, h1]
    rfl
  · rw [append_osh_event, encodeEvent_bigEvent2]
    dsimp only
    rw [bigPayload2_length]
    norm_num

theorem encodeEvent_shape (e : Event) (data : List Nat)
    (h : encodeEvent e = some data) : ∃ rest, data = hdrPrefix ++ rest := by
  rw [encodeEvent] at h
  cases hts : encTimestamp e.timestamp with
  | none => rw [hts] at h; simp at h
  | some tsB =>
  rw [hts] at h
  simp only [Option.bind_eq_bind, Option.some_bind'] at h
  cases hcmd : encStr e.command with
  | none => rw [hcmd] at h; simp at h
  | some cmdB =>
  rw [hcmd] at h
  simp only [Option.some_bind'] at h
  cases hdur : encDuration e.duration with
  | none => rw [hdur] at h; simp at h
  | some durB =>
  rw [hdur] at h
  simp only [Option.some_bind'] at h
  cases hec : encOptInt e.exit_code with
  | none => rw [hec] at h; simp at h
  | some ecB =>
  rw [hec] at h
  simp only [Option.some_bind'] at h
  cases hfo : encOptStr e.folder with
  | none => rw [hfo] at h; simp at h
  | some foB =>
  rw [hfo] at h
  simp only [Option.some_bind'] at h
  cases hma : encOptStr e.machine with
  | none => rw [hma] at h; simp at h
  | some maB =>
  rw [hma] at h
  simp only [Option.some_bind'] at h
  cases hse : encOptStr e.session with
  | none => rw [hse] at h; simp at h
  | some seB =>
  rw [hse] at h
  simp only [Option.some_bind', Option.pure_def, Option.some.injEq] at h
  exact ⟨_, h.symm⟩

theorem encodeEvent_length_pos (e : Event) (data : List Nat)
    (h : encodeEvent e = some data) : 0 < data.length := by
  obtain ⟨rest, rfl⟩ := encodeEvent_shape e data h
  rw [List.length_append]
  have h22 : hdrPrefix.length = 22 := rfl
  omega

theorem frameOf_some (e : Event) (fr : List Nat) (h : frameOf e = some fr) :
    ∃ data, encodeEvent e = some data ∧ data.length < 2 ^ 16 ∧
      fr = data ++ [data.length / 256, data.length % 256] := by
  rw [frameOf] at h
  cases hd : encodeEvent e with
  | none => rw [hd] at h; cases h
  | some data =>
    rw [hd] at h
    simp only [Option.some_bind'] at h
    rw [sizeBytes2] at h
    split_ifs at h with hlt
    · simp only [Option.map_some', Option.some.injEq] at h
      exact ⟨data, rfl, hlt, h.symm⟩
    · simp at h

theorem frameOf_length (e : Event) (fr : List Nat) (h : frameOf e = some fr) :
    3 ≤ fr.length := by
  obtain ⟨data, hd, _, rfl⟩ := frameOf_some e fr h
  have := encodeEvent_length_pos e data hd
  rw [List.length_append]
  simp only [List.length_cons, List.length_nil]
  omega

theorem mapM_frameOf_cons (e : Event) (l : List Event) (r : List (List Nat))
    (h : (e :: l).mapM frameOf = some r) :
    ∃ fr rs, frameOf e = some fr ∧ l.mapM frameOf = some rs ∧ r = fr :: rs := by
  rw [List.mapM_cons] at h
  cases hfr : frameOf e with
  | none => rw [hfr] at h; simp at h
  | some fr =>
    rw [hfr] at h
    simp only [Option.bind_eq_bind, Option.some_bind'] at h
    cases hrs : l.mapM frameOf with
    | none => rw [hrs] at h; simp at h
    | some rs =>
      rw [hrs] at h
      simp only [Option.some_bind', Option.pure_def, Option.some.injEq] at h
      exact ⟨fr, rs, rfl, rfl, h.symm⟩

theorem mapM_frameOf_append (l1 l2 : List Event) (r1 r2 : List (List Nat))
    (h1 : l1.mapM frameOf = some r1) (h2 : l2.mapM frameOf = some r2) :
    (l1 ++ l2).mapM frameOf = some (r1 ++ r2) := by
  induction l1 generalizing r1 with
  | nil =>
    cases h1
    simpa using h2
  | cons e l ih =>
    obtain ⟨fr, rs, hfr, hrs, rfl⟩ := mapM_frameOf_cons e l r1 h1
    rw [List.cons_append, List.mapM_cons, hfr]
    simp only [Option.bind_eq_bind, Option.some_bind']
    rw [ih rs hrs]
    rfl

theorem mapM_frameOf_split (l1 l2 : List Event) (r : List (List Nat))
    (h : (l1 ++ l2).mapM frameOf = some r) :
    ∃ r1 r2, l1.mapM frameOf = some r1 ∧ l2.mapM frameOf = some r2 ∧ r = r1 ++ r2 := by
  induction l1 generalizing r with
  | nil => exact ⟨[], r, rfl, h, rfl⟩
  | cons e l ih =>
    rw [List.cons_append] at h
    obtain ⟨fr, rs, hfr, hrs, rfl⟩ := mapM_frameOf_cons e (l ++ l2) r h
    obtain ⟨r1, r2, hr1, hr2, rfl⟩ := ih rs hrs
    refine ⟨fr :: r1, r2, ?_, hr2, rfl⟩
    rw [List.mapM_cons, hfr]
    simp only [Option.bind_eq_bind, Option.some_bind']
    rw [hr1]
    rfl

theorem mapM_frameOf_mem_len (es : List Event) (frs : List (List Nat))
    (h : es.mapM frameOf = some frs) : ∀ fr ∈ frs, 3 ≤ fr.length := by
  induction es generalizing frs with
  | nil => cases h; intro fr hfr; cases hfr
  | cons e l ih =>
    obtain ⟨fr, rs, hfr, hrs, rfl⟩ := mapM_frameOf_cons e l frs h
    intro x hx
    rcases List.mem_cons.mp hx with rfl | hx
    · exact frameOf_length e x hfr
    · exact ih rs hrs x hx

theorem append_osh_event_frame (e : Event) (fr acc : List Nat)
    (h : frameOf e = some fr) : append_osh_event e acc = .ok (acc ++ fr) := by
  obtain ⟨data, hd, hlt, rfl⟩ := frameOf_some e fr h
  unfold append_osh_event
  rw [hd]
  dsimp only
  rw [if_neg (by omega), sizeBytes2, if_pos hlt]
  dsimp only
  rw [List.append_assoc]

theorem write_osh_events_acc (es : List Event) (frs : List (List Nat))
    (h : es.mapM frameOf = some frs) (acc : List Nat) :
    es.foldlM (fun f e => append_osh_event e f) acc = .ok (acc ++ frs.flatten) := by
  induction es generalizing frs acc with
  | nil =>
    cases h
    rw [List.foldlM_nil]
    show Except.ok acc = Except.ok (acc ++ [].flatten)
    rw [List.flatten_nil, List.append_nil]
  | cons e l ih =>
    obtain ⟨fr, rs, hfr, hrs, rfl⟩ := mapM_frameOf_cons e l frs h
    rw [List.foldlM_cons, append_osh_event_frame e fr acc hfr]
    show l.foldlM (fun f e => append_osh_event e f) (acc ++ fr) = _
    rw [ih rs hrs (acc ++ fr), List.flatten_cons, List.append_assoc]

theorem write_osh_events_bytes (es : List Event) (frs : List (List Nat))
    (h : es.mapM frameOf = some frs) : write_osh_events es = .ok frs.flatten := by
  rw [write_osh_events, write_osh_events_acc es frs h []]
  rfl

theorem read_osh_go_zero_pos (file : List Nat) (fuel : Nat) :
    read_osh_go file fuel 0 = .ok [] := by
  cases fuel <;> rfl

theorem read_osh_go_succ (file : List Nat) (fuel p : Nat) :
    read_osh_go file (fuel + 1) (p + 1) =
      match decodeEvent (pySlice file
          (p + 1 - intFromBytes (pySlice file (p + 1) (p + 1 + 2))) (p + 1)) with
      | none => .error .corrupt
      | some e => (read_osh_go file fuel
          (p + 1 - intFromBytes (pySlice file (p + 1) (p + 1 + 2)) - 2)).map
          (fun es => e :: es) := rfl

theorem read_osh_go_fuel (file : List Nat) :
    ∀ fuel1 fuel2 pos, pos ≤ fuel1 → pos ≤ fuel2 →
      read_osh_go file fuel1 pos = read_osh_go file fuel2 pos := by
  intro fuel1
  induction fuel1 with
  | zero =>
    intro fuel2 pos h1 _
    have hp : pos = 0 := by omega
    subst hp
    rw [read_osh_go_zero_pos, read_osh_go_zero_pos]
  | succ k ih =>
    intro fuel2 pos h1 h2
    cases pos with
    | zero => rw [read_osh_go_zero_pos, read_osh_go_zero_pos]
    | succ p =>
      cases fuel2 with
      | zero => omega
      | succ m =>
        rw [read_osh_go_succ, read_osh_go_succ,
          ih m (p + 1 - intFromBytes (pySlice file (p + 1) (p + 1 + 2)) - 2)
            (by omega) (by omega)]

theorem pySlice_of_prefix (f g : List Nat) (a b : Nat) (hb : b ≤ f.length) :
    pySlice (f ++ g) a b = pySlice f a b := by
  rw [pySlice, pySlice]
  by_cases ha : a ≤ f.length
  · rw [List.drop_append_of_le_length ha,
      List.take_append_of_le_length (by rw [List.length_drop]; omega)]
  · rw [show b - a = 0 from by omega]
    simp

theorem read_osh_go_of_prefix (f g : List Nat) :
    ∀ fuel pos, pos + 2 ≤ f.length →
      read_osh_go (f ++ g) fuel pos = read_osh_go f fuel pos := by
  intro fuel
  induction fuel with
  | zero =>
    intro pos _
    cases pos <;> rfl
  | succ k ih =>
    intro pos h
    cases pos with
    | zero => rw [read_osh_go_zero_pos, read_osh_go_zero_pos]
    | succ p =>
      rw [read_osh_go_succ, read_osh_go_succ,
        pySlice_of_prefix f g (p + 1) (p + 1 + 2) (by omega),
        pySlice_of_prefix f g _ (p + 1) (by omega)]
      cases hdec : decodeEvent (pySlice f
          (p + 1 - intFromBytes (pySlice f (p + 1) (p + 1 + 2))) (p + 1)) with
      | none => rfl
      | some e =>
        dsimp only
        rw [ih _ (by omega)]

theorem read_osh_go_step (file : List Nat) (fuel pos : Nat)
    (hpos : 0 < pos) (hfuel : pos ≤ fuel) :
    read_osh_go file fuel pos =
      match decodeEvent (pySlice file
          (pos - intFromBytes (pySlice file pos (pos + 2))) pos) with
      | none => .error .corrupt
      | some e => (read_osh_go file (fuel - 1)
          (pos - intFromBytes (pySlice file pos (pos + 2)) - 2)).map
          (fun es => e :: es) := by
  cases fuel with
  | zero => omega
  | succ k =>
    cases pos with
    | zero => omega
    | succ p =>
      rw [read_osh_go_succ]
      rfl

theorem pySlice_mid (x y : List Nat) (k : Nat) :
    pySlice (x ++ y) x.length (x.length + k) = y.take k := by
  rw [pySlice, List.drop_left]
  congr 1
  omega

theorem intFromBytes_size_pair (n : Nat) :
    intFromBytes ([n / 256, n % 256].take 2) = n := by
  simp only [List.take_succ_cons, List.take_zero, intFromBytes, List.foldl_cons,
    List.foldl_nil]
  omega

theorem read_scan (es : List Event) : ∀ frs : List (List Nat),
    es.mapM frameOf = some frs →
    read_osh_go frs.flatten frs.flatten.length (frs.flatten.length - 2) =
      .ok es.reverse := by
  induction es using List.reverseRecOn with
  | nil =>
    intro frs h
    cases h
    rfl
  | append_singleton es e ih =>
    intro frs h
    obtain ⟨r1, r2, h1, h2, rfl⟩ := mapM_frameOf_split es [e] frs h
    obtain ⟨fr, rs, hfr, hrs, hr2⟩ := mapM_frameOf_cons e [] r2 h2
    have hrs0 : rs = [] := by cases hrs; rfl
    subst hrs0
    subst hr2
    obtain ⟨data, hd, hlt, rfl⟩ := frameOf_some e _ hfr
    have hdp : 0 < data.length := encodeEvent_length_pos e data hd
    have hAlen : (r1.flatten ++ data).length = r1.flatten.length + data.length :=
      List.length_append _ _
    have hflat : (r1 ++ [data ++ [data.length / 256, data.length % 256]]).flatten
        = (r1.flatten ++ data) ++ [data.length / 256, data.length % 256] := by
      rw [List.flatten_append, List.flatten_cons, List.flatten_nil,
        List.append_nil, ← List.append_assoc]
    rw [hflat]
    have hlen : ((r1.flatten ++ data) ++
        [data.length / 256, data.length % 256]).length
        = (r1.flatten ++ data).length + 2 := by
      rw [List.length_append]
      rfl
    rw [hlen, Nat.add_sub_cancel]
    rw [read_osh_go_step _ _ _ (by omega) (by omega)]
    rw [pySlice_mid (r1.flatten ++ data) [data.length / 256, data.length % 256] 2,
      intFromBytes_size_pair data.length]
    have hAl : (r1.flatten ++ data).length - data.length = r1.flatten.length := by
      omega
    rw [hAl]
    have hpay : pySlice ((r1.flatten ++ data) ++
        [data.length / 256, data.length % 256]) r1.flatten.length
        (r1.flatten ++ data).length = data := by
      rw [List.append_assoc, hAlen, pySlice_mid, List.take_left]
    rw [hpay, decode_enc_aux e data hd]
    dsimp only
    by_cases hB : 2 ≤ r1.flatten.length
    · rw [List.append_assoc,
        read_osh_go_of_prefix r1.flatten (data ++ [data.length / 256,
          data.length % 256]) _ (r1.flatten.length - 2) (by omega),
        read_osh_go_fuel r1.flatten _ r1.flatten.length (r1.flatten.length - 2)
          (by omega) (by omega),
        ih r1 h1, List.reverse_append]
      rfl
    · rw [show r1.flatten.length - 2 = 0 from by omega, read_osh_go_zero_pos]
      cases es with
      | nil => rfl
      | cons e0 l0 =>
        exfalso
        obtain ⟨fr0, rs0, hfr0, _, hre⟩ := mapM_frameOf_cons e0 l0 r1 h1
        subst hre
        have h3 := frameOf_length e0 fr0 hfr0
        have h4 : (fr0 :: rs0).flatten.length = fr0.length + rs0.flatten.length := by
          rw [List.flatten_cons, List.length_append]
        omega

theorem mapM_frameOf_total (es : List Event)
    (h : ∀ e ∈ es, ∃ data, encodeEvent e = some data ∧ data.length ≤ 65535) :
    ∃ frs, es.mapM frameOf = some frs := by
  induction es with
  | nil => exact ⟨[], rfl⟩
  | cons e l ih =>
    obtain ⟨data, hd, hlen⟩ := h e (List.mem_cons_self e l)
    obtain ⟨frs, hfrs⟩ := ih (fun x hx => h x (List.mem_cons_of_mem e hx))
    have hfr : frameOf e
        = some (data ++ [data.length / 256, data.length % 256]) := by
      rw [frameOf, hd]
      show (sizeBytes2 data.length).map _ = _
      rw [sizeBytes2, if_pos (by omega)]
      rfl
    refine ⟨(data ++ [data.length / 256, data.length % 256]) :: frs, ?_⟩
    rw [List.mapM_cons, hfr]
    simp only [Option.bind_eq_bind, Option.some_bind']
    rw [hfrs]
    rfl

/-- Claim C2 (amended): for every sequence of events each of whose encoded
payloads is at most 65,535 bytes, `forward_write` succeeds, and on a
NONEMPTY sequence `reverse_scan` of the written file yields exactly the
reversed sequence; on the EMPTY sequence the written file is empty and
`reverse_scan` fails (because `mmap.mmap` raises `ValueError` on a
zero-length file) instead of yielding zero events as claimed. -/
theorem write_read_roundtrip_c2 (es : List Event)
    (h : ∀ e ∈ es, ∃ data, encodeEvent e = some data ∧ data.length ≤ 65535) :
    ∃ file, write_osh_events es = .ok file ∧
      (es ≠ [] → read_osh_events file = .ok es.reverse) ∧
      (es = [] → file = [] ∧ read_osh_events file = .error .mmapEmpty) := by
  obtain ⟨frs, hfrs⟩ := mapM_frameOf_total es h
  refine ⟨frs.flatten, write_osh_events_bytes es frs hfrs, ?_, ?_⟩
  · intro hne
    rw [read_osh_events]
    have hpos : ¬ frs.flatten.length = 0 := by
      cases es with
      | nil => exact absurd rfl hne
      | cons e0 l0 =>
        obtain ⟨fr0, rs0, hfr0, _, hre⟩ := mapM_frameOf_cons e0 l0 frs hfrs
        subst hre
        have h3 := frameOf_length e0 fr0 hfr0
        have h4 : (fr0 :: rs0).flatten.length
            = fr0.length + rs0.flatten.length := by
          rw [List.flatten_cons, List.length_append]
        omega
    rw [if_neg hpos]
    exact read_scan es frs hfrs
  · intro he
    subst he
    have h0 : frs = [] := by cases hfrs; rfl
    subst h0
    exact ⟨rfl, rfl⟩

/-- Counterexample to C2's empty-sequence clause: forward-writing the empty
sequence yields the empty file, and the reverse scan of the empty file
fails (`mmap.mmap` raises `ValueError: cannot mmap an empty file`) instead
of yielding zero events. -/
theorem read_osh_events_empty_cex :
    write_osh_events [] = .ok [] ∧ read_osh_events [] = .error .mmapEmpty :=
  ⟨rfl, rfl⟩

/-- Two small concrete events for the C2 witness. -/
def evA : Event := ⟨1000000000, [108, 115], none, none, none, none, none⟩

/-- Second concrete event for the C2 witness. -/
def evB : Event := ⟨2000000000, [99, 100], none, none, none, none, none⟩

set_option maxRecDepth 4000 in
/-- Witness for C2 at the two-event sequence `[evA, evB]`. -/
theorem write_read_roundtrip_c2_witness :
    (∀ e ∈ [evA, evB], ∃ data, encodeEvent e = some data ∧
      data.length ≤ 65535) ∧
    ∃ file, write_osh_events [evA, evB] = .ok file ∧
      ([evA, evB] ≠ [] → read_osh_events file = .ok [evA, evB].reverse) ∧
      ([evA, evB] = [] → file = [] ∧
        read_osh_events file = .error .mmapEmpty) := by
  have h : ∀ e ∈ [evA, evB], ∃ data, encodeEvent e = some data ∧
      data.length ≤ 65535 := by
    intro e he
    rcases List.mem_cons.mp he with rfl | he
    · exact ⟨_, rfl, by decide⟩
    rcases List.mem_cons.mp he with rfl | he
    · exact ⟨_, rfl, by decide⟩
    cases he
  exact ⟨h, write_read_roundtrip_c2 [evA, evB] h⟩

theorem intFromBytes_pair (n : Nat) : intFromBytes [n / 256, n % 256] = n := by
  simp only [intFromBytes, List.foldl_cons, List.foldl_nil]
  omega

theorem find_insert_at_zero_pos (file : List Nat) (t : Int) (fuel : Nat) :
    find_insert_at file t fuel 0 = .ok 0 := by
  cases fuel <;> rfl

theorem find_insert_at_succ (file : List Nat) (t : Int) (fuel p : Nat) :
    find_insert_at file t (fuel + 1) (p + 1) =
      match decodeEvent (pySlice file
          (p + 1 - 2 - intFromBytes (pySlice file (p + 1 - 2) (p + 1)))
          (p + 1 - 2)) with
      | none => .error .corrupt
      | some entry =>
        if entry.timestamp ≤ t then .ok (p + 1)
        else find_insert_at file t fuel
          (p + 1 - 2 - intFromBytes (pySlice file (p + 1 - 2) (p + 1))) := rfl

theorem find_insert_at_fuel (file : List Nat) (t : Int) :
    ∀ fuel1 fuel2 pos, pos ≤ fuel1 → pos ≤ fuel2 →
      find_insert_at file t fuel1 pos = find_insert_at file t fuel2 pos := by
  intro fuel1
  induction fuel1 with
  | zero =>
    intro fuel2 pos h1 _
    have hp : pos = 0 := by omega
    subst hp
    rw [find_insert_at_zero_pos, find_insert_at_zero_pos]
  | succ k ih =>
    intro fuel2 pos h1 h2
    cases pos with
    | zero => rw [find_insert_at_zero_pos, find_insert_at_zero_pos]
    | succ p =>
      cases fuel2 with
      | zero => omega
      | succ m =>
        rw [find_insert_at_succ, find_insert_at_succ,
          ih m (p + 1 - 2 - intFromBytes (pySlice file (p + 1 - 2) (p + 1)))
            (by omega) (by omega)]

theorem find_insert_at_step (file : List Nat) (t : Int) (fuel pos : Nat)
    (hpos : 0 < pos) (hfuel : pos ≤ fuel) :
    find_insert_at file t fuel pos =
      match decodeEvent (pySlice file
          (pos - 2 - intFromBytes (pySlice file (pos - 2) pos)) (pos - 2)) with
      | none => .error .corrupt
      | some entry =>
        if entry.timestamp ≤ t then .ok pos
        else find_insert_at file t (fuel - 1)
          (pos - 2 - intFromBytes (pySlice file (pos - 2) pos)) := by
  cases fuel with
  | zero => omega
  | succ k =>
    cases pos with
    | zero => omega
    | succ p =>
      rw [find_insert_at_succ]
      rfl

theorem pySlice_frame_size (B data S : List Nat) :
    pySlice (B ++ ((data ++ [data.length / 256, data.length % 256]) ++ S))
      (B.length + data.length) (B.length + (data.length + 2))
      = [data.length / 256, data.length % 256] := by
  have h1 : B ++ ((data ++ [data.length / 256, data.length % 256]) ++ S)
      = ((B ++ data) ++ [data.length / 256, data.length % 256]) ++ S := by
    simp only [List.append_assoc]
  have h2 : B.length + data.length = (B ++ data).length :=
    (List.length_append _ _).symm
  have h3 : B.length + (data.length + 2) = (B ++ data).length + 2 := by
    rw [List.length_append]
    omega
  rw [h1, h2, h3, pySlice_of_prefix _ S _ _
      (by simp only [List.length_append, List.length_cons, List.length_nil]; omega),
    pySlice_mid]
  rfl

theorem pySlice_frame_payload (B data S : List Nat) :
    pySlice (B ++ ((data ++ [data.length / 256, data.length % 256]) ++ S))
      B.length (B.length + data.length) = data := by
  have h1 : B ++ ((data ++ [data.length / 256, data.length % 256]) ++ S)
      = (B ++ data) ++ ([data.length / 256, data.length % 256] ++ S) := by
    simp only [List.append_assoc]
  rw [h1, pySlice_of_prefix (B ++ data) _ _ _ (by simp [List.length_append]),
    pySlice_mid, List.take_length]

theorem find_insert_at_skip (t : Int) : ∀ post : List Event,
    ∀ frs2 : List (List Nat), post.mapM frameOf = some frs2 →
    (∀ x ∈ post, t < x.timestamp) →
    ∀ (P S file : List Nat) (fuel : Nat),
      file = P ++ (frs2.flatten ++ S) →
      P.length + frs2.flatten.length ≤ fuel →
      find_insert_at file t fuel (P.length + frs2.flatten.length)
        = find_insert_at file t fuel P.length := by
  intro post
  induction post using List.reverseRecOn with
  | nil =>
    intro frs2 h2 _ P S file fuel _ _
    have h0 : frs2 = [] := by cases h2; rfl
    subst h0
    simp only [List.flatten_nil, List.length_nil, Nat.add_zero]
  | append_singleton post x ih =>
    intro frs2 h2 hall P S file fuel hfile hfuel
    obtain ⟨g1, g2, hg1, hg2, rfl⟩ := mapM_frameOf_split post [x] frs2 h2
    obtain ⟨frx, rs, hfrx, hrs, hg2'⟩ := mapM_frameOf_cons x [] g2 hg2
    have hrs0 : rs = [] := by cases hrs; rfl
    subst hrs0
    subst hg2'
    obtain ⟨datax, hdx, hltx, rfl⟩ := frameOf_some x _ hfrx
    have hdp : 0 < datax.length := encodeEvent_length_pos x datax hdx
    have hPg : (P ++ g1.flatten).length = P.length + g1.flatten.length :=
      List.length_append _ _
    have hfl : (g1 ++ [datax ++ [datax.length / 256, datax.length % 256]]).flatten
        = g1.flatten ++ (datax ++ [datax.length / 256, datax.length % 256]) := by
      rw [List.flatten_append, List.flatten_cons, List.flatten_nil, List.append_nil]
    have hfl2 : (g1 ++ [datax ++ [datax.length / 256,
        datax.length % 256]]).flatten.length
        = g1.flatten.length + (datax.length + 2) := by
      rw [hfl, List.length_append, List.length_append]
      rfl
    have hfile2 : file = (P ++ g1.flatten)
        ++ ((datax ++ [datax.length / 256, datax.length % 256]) ++ S) := by
      rw [hfile, hfl]
      simp only [List.append_assoc]
    have hpos2 : P.length + (g1 ++ [datax ++ [datax.length / 256,
        datax.length % 256]]).flatten.length
        = (P ++ g1.flatten).length + (datax.length + 2) := by
      rw [hfl2, List.length_append]
      omega
    rw [hpos2] at hfuel ⊢
    rw [hfile2]
    rw [find_insert_at_step _ t fuel _ (by omega) (by omega)]
    rw [show (P ++ g1.flatten).length + (datax.length + 2) - 2
        = (P ++ g1.flatten).length + datax.length from by omega]
    rw [pySlice_frame_size (P ++ g1.flatten) datax S, intFromBytes_pair]
    rw [show (P ++ g1.flatten).length + datax.length - datax.length
        = (P ++ g1.flatten).length from by omega]
    rw [pySlice_frame_payload (P ++ g1.flatten) datax S, decode_enc_aux x datax hdx]
    dsimp only
    rw [if_neg (not_le.mpr (hall x (by simp)))]
    rw [find_insert_at_fuel _ t (fuel - 1) fuel ((P ++ g1.flatten).length)
      (by omega) (by omega)]
    rw [hPg]
    exact ih g1 hg1 (fun y hy => hall y (by simp [hy])) P
      ((datax ++ [datax.length / 256, datax.length % 256]) ++ S) _ fuel
      (by simp only [List.append_assoc]) (by omega)

theorem find_insert_at_found (t : Int) (pre : List Event) (frs1 : List (List Nat))
    (h1 : pre.mapM frameOf = some frs1)
    (hpre : ∀ x ∈ pre, x.timestamp ≤ t)
    (S file : List Nat) (fuel : Nat)
    (hfile : file = frs1.flatten ++ S)
    (hfuel : frs1.flatten.length ≤ fuel) :
    find_insert_at file t fuel frs1.flatten.length = .ok frs1.flatten.length := by
  rcases List.eq_nil_or_concat pre with rfl | ⟨pre', y, hconcat⟩
  · have h0 : frs1 = [] := by cases h1; rfl
    subst h0
    simp only [List.flatten_nil, List.length_nil]
    exact find_insert_at_zero_pos file t fuel
  · rw [List.concat_eq_append] at hconcat
    subst hconcat
    obtain ⟨g1, g2, hg1, hg2, rfl⟩ := mapM_frameOf_split pre' [y] frs1 h1
    obtain ⟨fry, rs, hfry, hrs, hg2'⟩ := mapM_frameOf_cons y [] g2 hg2
    have hrs0 : rs = [] := by cases hrs; rfl
    subst hrs0
    subst hg2'
    obtain ⟨datay, hdy, hlty, rfl⟩ := frameOf_some y _ hfry
    have hdp : 0 < datay.length := encodeEvent_length_pos y datay hdy
    have hfl : (g1 ++ [datay ++ [datay.length / 256, datay.length % 256]]).flatten
        = g1.flatten ++ (datay ++ [datay.length / 256, datay.length % 256]) := by
      rw [List.flatten_append, List.flatten_cons, List.flatten_nil, List.append_nil]
    have hfl2 : (g1 ++ [datay ++ [datay.length / 256,
        datay.length % 256]]).flatten.length
        = g1.flatten.length + (datay.length + 2) := by
      rw [hfl, List.length_append, List.length_append]
      rfl
    have hfile2 : file = (g1.flatten)
        ++ ((datay ++ [datay.length / 256, datay.length % 256]) ++ S) := by
      rw [hfile, hfl]
      simp only [List.append_assoc]
    have hpos2 : (g1 ++ [datay ++ [datay.length / 256,
        datay.length % 256]]).flatten.length
        = g1.flatten.length + (datay.length + 2) := hfl2
    rw [hpos2] at hfuel ⊢
    rw [hfile2]
    rw [find_insert_at_step _ t fuel _ (by omega) (by omega)]
    rw [show g1.flatten.length + (datay.length + 2) - 2
        = g1.flatten.length + datay.length from by omega]
    rw [pySlice_frame_size (g1.flatten) datay S, intFromBytes_pair]
    rw [show g1.flatten.length + datay.length - datay.length
        = g1.flatten.length from by omega]
    rw [pySlice_frame_payload (g1.flatten) datay S, decode_enc_aux y datay hdy]
    dsimp only
    rw [if_pos (hpre y (by simp))]

theorem dropWhile_gt (t : Int) (es : List Event) (hs : es.Pairwise tsLe) :
    ∀ x ∈ es.dropWhile (fun y => decide (y.timestamp ≤ t)), t < x.timestamp := by
  induction es with
  | nil => intro x hx; simp at hx
  | cons a l ih =>
    rw [List.dropWhile_cons]
    split_ifs with hcond
    · exact ih (List.pairwise_cons.mp hs).2
    · intro x hx
      have ha : t < a.timestamp := not_le.mp (by simpa using hcond)
      rcases List.mem_cons.mp hx with rfl | hx
      · exact ha
      · exact lt_of_lt_of_le ha ((List.pairwise_cons.mp hs).1 x hx)

theorem flatten_len_zero (l : List Event) (frs : List (List Nat))
    (h : l.mapM frameOf = some frs) (h0 : frs.flatten.length = 0) :
    l = [] ∧ frs = [] := by
  cases l with
  | nil => cases h; exact ⟨rfl, rfl⟩
  | cons a l' =>
    obtain ⟨fr, rs, hfr, _, rfl⟩ := mapM_frameOf_cons a l' frs h
    have h3 := frameOf_length a fr hfr
    have h4 : (fr :: rs).flatten.length = fr.length + rs.flatten.length := by
      rw [List.flatten_cons, List.length_append]
    omega

/-- Claim C1: inserting an event whose payload fits into a file of
non-decreasingly timestamped frames succeeds, and the new file is exactly
the byte image of the old frames with the new frame placed immediately
after the last frame whose timestamp is `≤` the new event's (at offset 0
when there is none); the result is still in non-decreasing timestamp order
and has exactly one more frame. -/
theorem insert_osh_event_c1 (es : List Event) (frs : List (List Nat)) (e : Event)
    (hes : es.mapM frameOf = some frs)
    (hsorted : es.Pairwise tsLe)
    (data : List Nat) (hd : encodeEvent e = some data)
    (hfit : data.length ≤ 65535) :
    ∃ file',
      insert_osh_event e frs.flatten = .ok file' ∧
      eventsBytes (es.takeWhile (fun x => decide (x.timestamp ≤ e.timestamp)) ++
        e :: es.dropWhile (fun x => decide (x.timestamp ≤ e.timestamp)))
        = some file' ∧
      (es.takeWhile (fun x => decide (x.timestamp ≤ e.timestamp)) ++
        e :: es.dropWhile (fun x => decide (x.timestamp ≤ e.timestamp))).Pairwise
        tsLe ∧
      (es.takeWhile (fun x => decide (x.timestamp ≤ e.timestamp)) ++
        e :: es.dropWhile (fun x => decide (x.timestamp ≤ e.timestamp))).length
        = es.length + 1 := by
  have hlt16 : data.length < 2 ^ 16 := by omega
  have hframe : frameOf e
      = some (data ++ [data.length / 256, data.length % 256]) := by
    rw [frameOf, hd]
    show (sizeBytes2 data.length).map _ = _
    rw [sizeBytes2, if_pos hlt16]
    rfl
  have hsplit : es.takeWhile (fun x => decide (x.timestamp ≤ e.timestamp)) ++
      es.dropWhile (fun x => decide (x.timestamp ≤ e.timestamp)) = es :=
    List.takeWhile_append_dropWhile _ _
  rw [← hsplit] at hes
  obtain ⟨frs1, frs2, h1, h2, rfl⟩ := mapM_frameOf_split _ _ frs hes
  have hpost : ∀ x ∈ es.dropWhile (fun y => decide (y.timestamp ≤ e.timestamp)),
      e.timestamp < x.timestamp := dropWhile_gt e.timestamp es hsorted
  have hpre : ∀ x ∈ es.takeWhile (fun y => decide (y.timestamp ≤ e.timestamp)),
      x.timestamp ≤ e.timestamp := fun x hx => by
    simpa using List.mem_takeWhile_imp hx
  have hcons : (e :: es.dropWhile
        (fun x => decide (x.timestamp ≤ e.timestamp))).mapM frameOf
      = some ((data ++ [data.length / 256, data.length % 256]) :: frs2) := by
    rw [List.mapM_cons, hframe]
    simp only [Option.bind_eq_bind, Option.some_bind']
    rw [h2]
    rfl
  have hmapM := mapM_frameOf_append _ _ _ _ h1 hcons
  have hsorted' : (es.takeWhile (fun x => decide (x.timestamp ≤ e.timestamp)) ++
      e :: es.dropWhile (fun x => decide (x.timestamp ≤ e.timestamp))).Pairwise
      tsLe := by
    rw [List.pairwise_append]
    refine ⟨List.Pairwise.sublist (List.takeWhile_sublist _) hsorted, ?_, ?_⟩
    · rw [List.pairwise_cons]
      exact ⟨fun x hx => le_of_lt (hpost x hx),
        List.Pairwise.sublist (List.dropWhile_sublist _) hsorted⟩
    · intro a ha b hb
      rcases List.mem_cons.mp hb with rfl | hb
      · exact hpre a ha
      · exact le_of_lt (lt_of_le_of_lt (hpre a ha) (hpost b hb))
  have hlength : (es.takeWhile (fun x => decide (x.timestamp ≤ e.timestamp)) ++
      e :: es.dropWhile (fun x => decide (x.timestamp ≤ e.timestamp))).length
      = es.length + 1 := by
    have := congrArg List.length hsplit
    rw [List.length_append] at this
    rw [List.length_append, List.length_cons]
    omega
  have hbytes : eventsBytes
      (es.takeWhile (fun x => decide (x.timestamp ≤ e.timestamp)) ++
        e :: es.dropWhile (fun x => decide (x.timestamp ≤ e.timestamp)))
      = some (frs1.flatten ++ ((data ++ [data.length / 256, data.length % 256])
        ++ frs2.flatten)) := by
    rw [eventsBytes, hmapM, Option.map_some', List.flatten_append,
      List.flatten_cons]
  refine ⟨frs1.flatten ++ ((data ++ [data.length / 256, data.length % 256])
    ++ frs2.flatten), ?_, hbytes, hsorted', hlength⟩
  have hlen_split : (frs1 ++ frs2).flatten.length
      = frs1.flatten.length + frs2.flatten.length := by
    rw [List.flatten_append, List.length_append]
  by_cases hnil : (frs1 ++ frs2).flatten.length = 0
  · obtain ⟨hln, hfn⟩ := flatten_len_zero _ _ hes hnil
    obtain ⟨hpre0, hpost0⟩ := List.append_eq_nil.mp hln
    obtain ⟨hf10, hf20⟩ := List.append_eq_nil.mp hfn
    subst hf10
    subst hf20
    have hc : (([] : List (List Nat)) ++ ([] : List (List Nat))).flatten.length
        = 0 := rfl
    rw [insert_osh_event, if_pos hc, write_osh_events, List.foldlM_cons,
      append_osh_event_frame e _ [] hframe]
    show List.foldlM _ _ _ = _
    rw [List.foldlM_nil]
    simp only [List.flatten_nil, List.nil_append, List.append_nil]
    rfl
  · rw [insert_osh_event, if_neg hnil]
    rw [hlen_split]
    rw [find_insert_at_skip e.timestamp _ frs2 h2 hpost frs1.flatten
      [] _ (frs1.flatten.length + frs2.flatten.length)
      (by rw [List.flatten_append, List.append_nil]) (le_refl _)]
    rw [find_insert_at_found e.timestamp _ frs1 h1 hpre frs2.flatten
      _ (frs1.flatten.length + frs2.flatten.length)
      (by rw [List.flatten_append]) (by omega)]
    dsimp only
    rw [hd]
    dsimp only
    rw [if_neg (by omega), sizeBytes2, if_pos hlt16]
    dsimp only
    rw [show (frs1 ++ frs2).flatten = frs1.flatten ++ frs2.flatten from
      List.flatten_append _ _, List.take_left, List.drop_left]
    simp only [List.append_assoc]

/-- Frame with timestamp 1000 for the C1 witness. -/
def evT1 : Event := ⟨1000, [97], none, none, none, none, none⟩

/-- Frame with timestamp 3000 for the C1 witness. -/
def evT3 : Event := ⟨3000, [98], none, none, none, none, none⟩

/-- Frame with timestamp 4000 for the C1 witness. -/
def evT4 : Event := ⟨4000, [99], none, none, none, none, none⟩

/-- The event inserted in the C1 witness: timestamp 2500, command `ls`. -/
def evIns : Event := ⟨2500, [108, 115], none, none, none, none, none⟩

set_option maxRecDepth 8000 in
/-- Witness for C1: inserting timestamp 2500 into frames timestamped
`[1000, 3000, 4000]` yields the frame order `[1000, 2500, 3000, 4000]`. -/
theorem insert_osh_event_c1_witness :
    ∃ frs, [evT1, evT3, evT4].mapM frameOf = some frs ∧
      [evT1, evT3, evT4].Pairwise tsLe ∧
      ([evT1, evT3, evT4].takeWhile
          (fun x => decide (x.timestamp ≤ evIns.timestamp)) ++
        evIns :: [evT1, evT3, evT4].dropWhile
          (fun x => decide (x.timestamp ≤ evIns.timestamp))).map Event.timestamp
        = [1000, 2500, 3000, 4000] ∧
      ∃ file',
        insert_osh_event evIns frs.flatten = .ok file' ∧
        eventsBytes ([evT1, evT3, evT4].takeWhile
            (fun x => decide (x.timestamp ≤ evIns.timestamp)) ++
          evIns :: [evT1, evT3, evT4].dropWhile
            (fun x => decide (x.timestamp ≤ evIns.timestamp))) = some file' ∧
        ([evT1, evT3, evT4].takeWhile
            (fun x => decide (x.timestamp ≤ evIns.timestamp)) ++
          evIns :: [evT1, evT3, evT4].dropWhile
            (fun x => decide (x.timestamp ≤ evIns.timestamp))).Pairwise tsLe ∧
        ([evT1, evT3, evT4].takeWhile
            (fun x => decide (x.timestamp ≤ evIns.timestamp)) ++
          evIns :: [evT1, evT3, evT4].dropWhile
            (fun x => decide (x.timestamp ≤ evIns.timestamp))).length
          = [evT1, evT3, evT4].length + 1 :=
  ⟨_, rfl, by decide, by decide,
    insert_osh_event_c1 [evT1, evT3, evT4] _ evIns rfl (by decide) _ rfl
      (by decide)⟩

/-! ### The `.zsh_history` reader (`read_zsh_events`) and `convert` -/

/-- ASCII digit test, `\d` of the zsh line pattern. -/
def isDigit (b : Nat) : Bool := decide (48 ≤ b ∧ b ≤ 57)

/-- `int(...)` on a decimal digit string. -/
def digitsToNat (ds : List Nat) : Nat := ds.foldl (fun a d => 10 * a + (d - 48)) 0

/-- Python `str.split("\n")` on a byte string. -/
def splitNl : List Nat → List (List Nat)
  | [] => [[]]
  | b :: rest =>
    if b = 10 then [] :: splitNl rest
    else
      match splitNl rest with
      | [] => [[b]]
      | g :: gs => (b :: g) :: gs

/-- `zsh_event_pattern.fullmatch`: `^: (\d+):(\d+);(.*)$`, returning the
timestamp (seconds) and the raw command part.  The greedy `\d+` groups are
maximal digit runs (backtracking cannot help since a shorter run still ends
in a digit, not in `:` or `;`). -/
def parseZshLine (l : List Nat) : Option (Nat × List Nat) :=
  match l with
  | 58 :: 32 :: rest =>
    let ds := rest.takeWhile (fun b => isDigit b)
    let r1 := rest.dropWhile (fun b => isDigit b)
    if ds = [] then none
    else
      match r1 with
      | 58 :: r2 =>
        let ds2 := r2.takeWhile (fun b => isDigit b)
        let r3 := r2.dropWhile (fun b => isDigit b)
        if ds2 = [] then none
        else
          match r3 with
          | 59 :: cmd => some (digitsToNat ds, cmd)
          | _ => none
      | _ => none
  | _ => none

/-- The `while command.endswith("\\")` loop: strip the backslash, join the
next physical line with an embedded newline; `next()` on an exhausted
iterator raises `StopIteration`. -/
def zshCont : List Nat → List (List Nat) → Option (List Nat × List (List Nat))
  | cmd, ls =>
    if cmd.getLast? = some 92 then
      match ls with
      | [] => none
      | c :: rest => zshCont (cmd.dropLast ++ 10 :: c) rest
    else some (cmd, ls)

/-- The line loop of `read_zsh_events`.  The fuel only bounds the number of
records; every record consumes at least one line, so `lines.length` fuel is
always enough. -/
def zshGo : Nat → List (List Nat) → Except OshErr (List Event)
  | _, [] => .ok []
  | 0, _ :: _ => .error .corrupt
  | fuel + 1, l :: ls =>
    match parseZshLine l with
    | none => .error .parseErr
    | some (ts, cmd0) =>
      match zshCont cmd0 ls with
      | none => .error .stopIter
      | some (cmd, rest) =>
        (zshGo fuel rest).map
          (fun es => ⟨(ts : Int) * 10 ^ 9, cmd, none, none, none, none, none⟩ :: es)

/-- `read_zsh_events(path)`: split the text on newlines and drop the last
piece (`split("\n")[:-1]`), parse every record (continuations included),
then yield the events sorted newest-first — Python
`sorted(..., key=timestamp, reverse=True)` is a stable descending sort,
which `insertionSort` by `tsGe` reproduces. -/
def read_zsh_events (file : List Nat) : Except OshErr (List Event) :=
  (zshGo (splitNl file).dropLast.length (splitNl file).dropLast).map
    (fun es => List.insertionSort tsGe es)

/-- `app_convert` on a `.zsh_history` source: read all events, sort them
oldest-first (stable ascending sort), and forward-write the `.osh` file. -/
def app_convert_zsh (file : List Nat) : Except OshErr (List Nat) :=
  match read_zsh_events file with
  | .error e => .error e
  | .ok es => write_osh_events (List.insertionSort tsLe es)

/-- `app_convert` on an `.osh` source: read all events (newest first), sort
them oldest-first (stable ascending sort), and forward-write the file. -/
def app_convert_osh (file : List Nat) : Except OshErr (List Nat) :=
  match read_osh_events file with
  | .error e => .error e
  | .ok es => write_osh_events (List.insertionSort tsLe es)

theorem zshGo_nil (fuel : Nat) : zshGo fuel [] = .ok [] := by
  cases fuel <;> rfl

theorem zshGo_succ_cons (k : Nat) (l : List Nat) (ls : List (List Nat)) :
    zshGo (k + 1) (l :: ls) = match parseZshLine l with
      | none => .error .parseErr
      | some (ts, cmd0) =>
        match zshCont cmd0 ls with
        | none => .error .stopIter
        | some (cmd, rest) =>
          (zshGo k rest).map
            (fun es =>
              ⟨(ts : Int) * 10 ^ 9, cmd, none, none, none, none, none⟩ :: es) :=
  rfl

theorem zshGo_fields : ∀ fuel lines es, zshGo fuel lines = .ok es →
    ∀ e ∈ es, (∃ sec : Nat, e.timestamp = (sec : Int) * 10 ^ 9) ∧
      e.duration = none ∧ e.exit_code = none ∧ e.folder = none ∧
      e.machine = none ∧ e.session = none := by
  intro fuel
  induction fuel with
  | zero =>
    intro lines es h
    cases lines with
    | nil =>
      rw [zshGo_nil] at h
      cases h
      intro e he
      cases he
    | cons l ls => cases h
  | succ k ih =>
    intro lines es h
    cases lines with
    | nil =>
      rw [zshGo_nil] at h
      cases h
      intro e he
      cases he
    | cons l ls =>
      rw [zshGo_succ_cons] at h
      cases hp : parseZshLine l with
      | none => rw [hp] at h; cases h
      | some p =>
        rw [hp] at h
        obtain ⟨ts, cmd0⟩ := p
        dsimp only at h
        cases hc : zshCont cmd0 ls with
        | none => rw [hc] at h; cases h
        | some q =>
          rw [hc] at h
          obtain ⟨cmd, rest⟩ := q
          dsimp only at h
          cases hr : zshGo k rest with
          | error err => rw [hr] at h; cases h
          | ok es' =>
            rw [hr] at h
            dsimp only [Except.map] at h
            cases h
            intro e he
            rcases List.mem_cons.mp he with rfl | he
            · exact ⟨⟨ts, rfl⟩, rfl, rfl, rfl, rfl, rfl⟩
            · exact ih rest es' hr e he

/-- The concrete zsh history bytes of the claim:
`": 1700000000:0;echo one\\\n two\n: 1700000001:0;ls\n"`. -/
def demoZsh : List Nat :=
  [58, 32, 49, 55, 48, 48, 48, 48, 48, 48, 48, 48, 58, 48, 59,
   101, 99, 104, 111, 32, 111, 110, 101, 92, 10,
   32, 116, 119, 111, 10,
   58, 32, 49, 55, 48, 48, 48, 48, 48, 48, 48, 49, 58, 48, 59, 108, 115, 10]

/-- Expected first (older) event: timestamp 1700000000 s, command
`echo one\n two`. -/
def evZ1 : Event :=
  ⟨1700000000 * 10 ^ 9,
   [101, 99, 104, 111, 32, 111, 110, 101, 10, 32, 116, 119, 111],
   none, none, none, none, none⟩

/-- Expected second (newer) event: timestamp 1700000001 s, command `ls`. -/
def evZ2 : Event := ⟨1700000001 * 10 ^ 9, [108, 115], none, none, none, none, none⟩

/-- A line that does not match the record pattern (`"hello\n"`). -/
def badZsh : List Nat := [104, 101, 108, 108, 111, 10]

set_option maxRecDepth 8000 in
/-- Claim C7: every event the zsh reader yields has an integral-seconds
timestamp and no duration/exit-code/folder/machine/session, and the yield
order is newest-first (non-increasing timestamps) regardless of file
order; the claim's concrete input with a backslash continuation yields
exactly its two events (`echo one\n two` joined across physical lines),
and a non-matching line is a hard error. -/
theorem read_zsh_events_c7 :
    (∀ file es, read_zsh_events file = .ok es →
      es.Pairwise tsGe ∧
      ∀ e ∈ es, (∃ sec : Nat, e.timestamp = (sec : Int) * 10 ^ 9) ∧
        e.duration = none ∧ e.exit_code = none ∧ e.folder = none ∧
        e.machine = none ∧ e.session = none) ∧
    read_zsh_events demoZsh = .ok [evZ2, evZ1] ∧
    read_zsh_events badZsh = .error .parseErr := by
  refine ⟨?_, rfl, rfl⟩
  intro file es h
  rw [read_zsh_events] at h
  cases hg : zshGo (splitNl file).dropLast.length (splitNl file).dropLast with
  | error err => rw [hg] at h; cases h
  | ok es0 =>
    rw [hg] at h
    dsimp only [Except.map] at h
    cases h
    constructor
    · exact List.sorted_insertionSort tsGe es0
    · intro e he
      exact zshGo_fields _ _ es0 hg e
        ((List.perm_insertionSort tsGe es0).mem_iff.mp he)

set_option maxRecDepth 8000 in
/-- Witness for C7 at the claim's concrete input: its two events carry
integral-second timestamps, empty optional fields, and come out
newest-first. -/
theorem read_zsh_events_c7_witness :
    [evZ2, evZ1].Pairwise tsGe ∧
    ∀ e ∈ [evZ2, evZ1], (∃ sec : Nat, e.timestamp = (sec : Int) * 10 ^ 9) ∧
      e.duration = none ∧ e.exit_code = none ∧ e.folder = none ∧
      e.machine = none ∧ e.session = none :=
  read_zsh_events_c7.1 demoZsh [evZ2, evZ1] (by rfl)

theorem sorted_perm_distinct_eq : ∀ l1 l2 : List Event, l1.Perm l2 →
    l1.Pairwise tsLe → l2.Pairwise tsLe →
    l2.Pairwise (fun a b => a.timestamp ≠ b.timestamp) → l1 = l2 := by
  intro l1
  induction l1 with
  | nil =>
    intro l2 hp _ _ _
    cases l2 with
    | nil => rfl
    | cons b t2 => exact absurd hp.length_eq (by simp)
  | cons a t1 ih =>
    intro l2 hp hs1 hs2 hd2
    cases l2 with
    | nil => exact absurd hp.length_eq (by simp)
    | cons b t2 =>
      have hab : a = b := by
        have hbmem : b ∈ a :: t1 := hp.mem_iff.mpr (List.mem_cons_self b t2)
        have hamem : a ∈ b :: t2 := hp.mem_iff.mp (List.mem_cons_self a t1)
        rcases List.mem_cons.mp hbmem with h | hbt1
        · exact h.symm
        · have h1 : a.timestamp ≤ b.timestamp := (List.pairwise_cons.mp hs1).1 b hbt1
          rcases List.mem_cons.mp hamem with h | hat2
          · exact h
          · have h2 : b.timestamp ≤ a.timestamp :=
              (List.pairwise_cons.mp hs2).1 a hat2
            exact absurd (le_antisymm h2 h1) ((List.pairwise_cons.mp hd2).1 a hat2)
      subst hab
      rw [ih t2 hp.cons_inv (List.pairwise_cons.mp hs1).2
        (List.pairwise_cons.mp hs2).2 (List.pairwise_cons.mp hd2).2]

/-- Claim C8 (amended): re-converting an `.osh` file that was written from
an ascending event sequence is a no-op on the bytes PROVIDED the
timestamps are pairwise distinct (and the file is nonempty, since the
reader mmaps).  With a repeated timestamp the reverse scan flips the tied
frames and the stable re-sort keeps the flipped order, so the bytes
change — see the counterexample. -/
theorem app_convert_osh_c8 (es : List Event) (frs : List (List Nat))
    (hfrs : es.mapM frameOf = some frs)
    (hsorted : es.Pairwise tsLe)
    (hdistinct : es.Pairwise fun a b => a.timestamp ≠ b.timestamp)
    (hne : es ≠ []) :
    write_osh_events es = .ok frs.flatten ∧
    app_convert_osh frs.flatten = .ok frs.flatten := by
  have hw := write_osh_events_bytes es frs hfrs
  refine ⟨hw, ?_⟩
  have hread : read_osh_events frs.flatten = .ok es.reverse := by
    rw [read_osh_events]
    have hpos : ¬ frs.flatten.length = 0 := fun h0 =>
      hne (flatten_len_zero es frs hfrs h0).1
    rw [if_neg hpos]
    exact read_scan es frs hfrs
  have hsorteq : List.insertionSort tsLe es.reverse = es := by
    apply sorted_perm_distinct_eq
    · exact (List.perm_insertionSort tsLe es.reverse).trans (List.reverse_perm es)
    · exact List.sorted_insertionSort tsLe es.reverse
    · exact hsorted
    · exact hdistinct
  rw [app_convert_osh, hread]
  dsimp only
  rw [hsorteq]
  exact hw

/-- A two-record zsh history with a REPEATED timestamp:
`": 100:0;a\n: 100:0;b\n"`. -/
def zshC8 : List Nat :=
  [58, 32, 49, 48, 48, 58, 48, 59, 97, 10,
   58, 32, 49, 48, 48, 58, 48, 59, 98, 10]

set_option maxRecDepth 8000 in
/-- Counterexample to C8: converting this zsh history gives a file `f1`,
and converting `f1` (an `.osh` file now) gives different bytes `f2` — the
two equal-timestamp frames come back reversed, because the reverse scan
reverses them and the stable ascending re-sort keeps that reversed
order. -/
theorem app_convert_flip_c8cex :
    ∃ f1 f2, app_convert_zsh zshC8 = .ok f1 ∧ app_convert_osh f1 = .ok f2 ∧
      f1 ≠ f2 :=
  ⟨_, _, rfl, rfl, by decide⟩

set_option maxRecDepth 8000 in
/-- Witness for the amended C8 at two distinct-timestamp events. -/
theorem app_convert_osh_c8_witness :
    ∃ frs, [evA, evB].mapM frameOf = some frs ∧
      write_osh_events [evA, evB] = .ok frs.flatten ∧
      app_convert_osh frs.flatten = .ok frs.flatten :=
  ⟨_, rfl,
    (app_convert_osh_c8 [evA, evB] _ rfl (by decide) (by decide) (by decide)).1,
    (app_convert_osh_c8 [evA, evB] _ rfl (by decide) (by decide) (by decide)).2⟩
